import Mathlib

/-!
Shallow embedding of the free-text sensitive-identifier detector of
ClinicalNoteTool (`src/lib/pii.ts`, the rich fourteen-reason detector that the
spec designates as authoritative).

Texts are modelled as `List Char`.  The JS regular expressions used by the
source are transliterated into a small regex AST (`Rx`) together with an
executable backtracking matcher (`mrun`) that mirrors the relevant fragment of
ECMAScript regex semantics:

* alternation prefers the left alternative, quantifiers are greedy, and a
  match is the first success in depth-first order (exactly the JS backtracking
  priority);
* `\b` uses the ECMAScript word-character set `[A-Za-z0-9_]` (note: even under
  the `u` flag, `\b` in JS stays ASCII-based, so e.g. `'å'` is a non-word
  character for boundary purposes);
* `\s`, `trim`, `trimStart` and `split(/\s+/)` all use the ECMAScript
  WhiteSpace/LineTerminator set, modelled by `isJsWs`;
* the Unicode letter classes `\p{L}`, `\p{Lu}`, `\p{Ll}` are modelled by
  ASCII letters plus the Latin letters with diacritics that occur in the
  detector's Swedish/English domain; the exotic remainder of the Unicode
  tables is irrelevant to every claim considered here;
* case-insensitive (`i` flag) matching is modelled by the folding `foldC`
  (ASCII lowering plus the Latin-1/Latin Extended letters used in the
  patterns).

Unbounded greedy repetition (`+`, `{7,}`) is fuel-bounded; every repeated
sub-pattern of the source consumes at least one character per iteration, so a
fuel of `length + 1` (always supplied by the search wrappers) is never
exhausted before matching completes.
-/

namespace PII

/-- ECMAScript WhiteSpace ∪ LineTerminator: the set matched by `\s` and
removed by `trim`/`trimStart` in JS. -/
def isJsWs (c : Char) : Bool :=
  c.toNat = 0x20 || c.toNat = 0x09 || c.toNat = 0x0a || c.toNat = 0x0d ||
  c.toNat = 0x0b || c.toNat = 0x0c ||
  c.toNat = 0xa0 || c.toNat = 0x1680 ||
  (0x2000 ≤ c.toNat && c.toNat ≤ 0x200a) ||
  c.toNat = 0x2028 || c.toNat = 0x2029 || c.toNat = 0x202f ||
  c.toNat = 0x205f || c.toNat = 0x3000 || c.toNat = 0xfeff

/-- ECMAScript word character (the `\w` set used by `\b`): ASCII letters,
digits and underscore only. -/
def isWordChar (c : Char) : Bool :=
  (0x61 ≤ c.toNat && c.toNat ≤ 0x7a) || (0x41 ≤ c.toNat && c.toNat ≤ 0x5a) ||
  (0x30 ≤ c.toNat && c.toNat ≤ 0x39) || c.toNat = 0x5f

/-- ASCII digit, the JS `\d` class. -/
def isDigitC (c : Char) : Bool := 0x30 ≤ c.toNat && c.toNat ≤ 0x39

/-- Latin letters with diacritics that occur in the detector's domain,
lowercase forms. -/
def extraLower : List Char := ['å', 'ä', 'ö', 'é', 'è', 'ü', 'á', 'à', 'ø', 'æ']

/-- Uppercase forms of `extraLower`. -/
def extraUpper : List Char := ['Å', 'Ä', 'Ö', 'É', 'È', 'Ü', 'Á', 'À', 'Ø', 'Æ']

/-- Model of the Unicode class `\p{Ll}` restricted to the letters relevant
here. -/
def isLowerL (c : Char) : Bool :=
  ('a' ≤ c && c ≤ 'z') || extraLower.contains c

/-- Model of the Unicode class `\p{Lu}` restricted to the letters relevant
here. -/
def isUpperL (c : Char) : Bool :=
  ('A' ≤ c && c ≤ 'Z') || extraUpper.contains c

/-- Model of the Unicode class `\p{L}` restricted to the letters relevant
here. -/
def isLetterL (c : Char) : Bool := isLowerL c || isUpperL c

/-- Case folding used to model the `i` flag and `toLowerCase()`:
ASCII lowering plus the diacritic letters of `extraUpper`. -/
def foldC (c : Char) : Char :=
  if 'A' ≤ c && c ≤ 'Z' then Char.ofNat (c.toNat + 32)
  else if c = 'Å' then 'å'
  else if c = 'Ä' then 'ä'
  else if c = 'Ö' then 'ö'
  else if c = 'É' then 'é'
  else if c = 'È' then 'è'
  else if c = 'Ü' then 'ü'
  else if c = 'Á' then 'á'
  else if c = 'À' then 'à'
  else if c = 'Ø' then 'ø'
  else if c = 'Æ' then 'æ'
  else c

/-- `s.toLowerCase()` on the character-list model. -/
def lowerL (l : List Char) : List Char := l.map foldC

/-- Regex AST covering the constructs used by `src/lib/pii.ts`:
character classes, sequencing, alternation (left-preferring), greedy `?`,
greedy bounded repetition `{n,m}`, greedy fuel-bounded unbounded repetition
`{n,}`, the `\b` assertion, and a capture group marker. -/
inductive Rx : Type
  | eps : Rx
  | cls : (Char → Bool) → Rx
  | seq : Rx → Rx → Rx
  | alt : Rx → Rx → Rx
  | opt : Rx → Rx
  | repB : Rx → Nat → Nat → Rx
  | rep : Rx → Nat → Rx
  | wb : Rx
  | grp : Rx → Rx

/-- One alternative produced by the matcher: the consumed characters, the
captured groups (in group order), and the unconsumed rest. -/
structure MRes where
  out : List Char
  caps : List (List Char)
  rest : List Char

/-- `isWordChar` lifted to the optional previous character (`none` = start of
input, a non-word context). -/
def isWordO : Option Char → Bool
  | none => false
  | some c => isWordChar c

/-- The previous-character context after consuming `out` (unchanged when
nothing was consumed). -/
def lastO (pv : Option Char) (out : List Char) : Option Char :=
  match out.getLast? with
  | some c => some c
  | none => pv

/-- ECMAScript `\b` at the boundary between context `pv` and input `s`. -/
def wordBoundary (pv : Option Char) (s : List Char) : Bool :=
  isWordO pv != (match s with | [] => false | c :: _ => isWordChar c)

/-- Chain a first-part alternative `m1` with every continuation produced by
`k` on its rest, concatenating consumed text and captures. -/
def mchain (k : Option Char → List Char → List MRes) (pv : Option Char)
    (m1 : MRes) : List MRes :=
  (k (lastO pv m1.out) m1.rest).map fun m2 =>
    ⟨m1.out ++ m2.out, m1.caps ++ m2.caps, m2.rest⟩

/-- Greedy bounded repetition `{min,max}`: runner for a body matcher,
structurally recursive on the remaining maximum count.  Priority: more
iterations first (greedy), as in ECMAScript. -/
def mrunRepB (body : Option Char → List Char → List MRes) :
    Nat → Nat → Option Char → List Char → List MRes
  | 0, 0, _, s => [⟨[], [], s⟩]
  | _+1, 0, _, _ => []
  | 0, m+1, pv, s =>
    ((body pv s).flatMap (mchain (mrunRepB body 0 m) pv)) ++ [⟨[], [], s⟩]
  | n+1, m+1, pv, s =>
    (body pv s).flatMap (mchain (mrunRepB body n m) pv)

/-- Greedy unbounded repetition `{min,}`: runner for a body matcher,
structurally recursive on the fuel.  Iterations that consume nothing are
discarded, mirroring the ECMAScript empty-iteration loop guard; every
repeated sub-pattern in `src/lib/pii.ts` consumes at least one character per
iteration, so fuel `length + 1` (always supplied by the search wrappers) is
never exhausted. -/
def mrunRep (body : Option Char → List Char → List MRes) :
    Nat → Nat → Option Char → List Char → List MRes
  | 0, 0, _, s => [⟨[], [], s⟩]
  | 0, _+1, _, _ => []
  | f+1, 0, pv, s =>
    (((body pv s).filter fun m1 => !m1.out.isEmpty).flatMap
      (mchain (mrunRep body f 0) pv)) ++ [⟨[], [], s⟩]
  | f+1, n+1, pv, s =>
    (body pv s).flatMap (mchain (mrunRep body f n) pv)

/-- Backtracking matcher.  `mrun rx f pv s` lists every way `rx` can match a
prefix of `s` (previous character `pv`, fuel `f` for unbounded repetition),
in ECMAScript backtracking priority order: the head of the list is the match
JS would produce at this position. -/
def mrun : Rx → Nat → Option Char → List Char → List MRes
  | .eps, _, _, s => [⟨[], [], s⟩]
  | .cls p, _, _, s =>
    match s with
    | [] => []
    | c :: r => if p c then [⟨[c], [], r⟩] else []
  | .seq a b, f, pv, s => (mrun a f pv s).flatMap (mchain (mrun b f) pv)
  | .alt a b, f, pv, s => mrun a f pv s ++ mrun b f pv s
  | .opt a, f, pv, s => mrun a f pv s ++ [⟨[], [], s⟩]
  | .repB a n m, f, pv, s => mrunRepB (mrun a f) n m pv s
  | .rep a n, f, pv, s => mrunRep (mrun a f) f n pv s
  | .wb, _, pv, s => if wordBoundary pv s then [⟨[], [], s⟩] else []
  | .grp a, f, pv, s =>
    (mrun a f pv s).map fun m => ⟨m.out, m.caps ++ [m.out], m.rest⟩

/-- First (leftmost, then priority-first) non-empty match of `rx` in the
input, scanning with previous-character context `pv`: the model of
`firstRegexMatch` from the source.  An empty match is skipped and the scan
advances one position, as `firstRegexMatch` does with falsy hits. -/
def rxFirstAux (rx : Rx) : Option Char → List Char → Option (List Char)
  | pv, [] =>
    match (mrun rx 1 pv []).head? with
    | some m => if m.out.isEmpty then none else some m.out
    | none => none
  | pv, c :: r =>
    match (mrun rx ((c :: r).length + 1) pv (c :: r)).head? with
    | some m =>
      if m.out.isEmpty then rxFirstAux rx (some c) r else some m.out
    | none => rxFirstAux rx (some c) r

/-- `firstRegexMatch(text, re)` from the source: first matched substring. -/
def firstRegexMatch (t : List Char) (rx : Rx) : Option (List Char) :=
  rxFirstAux rx none t

/-- All successive non-overlapping matches with their start indices, as
produced by `text.matchAll(re)`.  The scan walks one character at a time;
`block` counts positions still covered by the previous match. -/
def amAux (rx : Rx) : Option Char → List Char → Nat → Nat →
    List (Nat × List Char)
  | _, [], _, _ => []
  | _, c :: r, i, b + 1 => amAux rx (some c) r (i + 1) b
  | pv, c :: r, i, 0 =>
    match (mrun rx ((c :: r).length + 1) pv (c :: r)).head? with
    | some m =>
      if m.out.isEmpty then amAux rx (some c) r (i + 1) 0
      else (i, m.out) :: amAux rx (some c) r (i + 1) (m.out.length - 1)
    | none => amAux rx (some c) r (i + 1) 0

/-- The list of matches of `text.matchAll(re)` with character indices. -/
def allMatches (rx : Rx) (t : List Char) : List (Nat × List Char) :=
  amAux rx none t 0 0

/-- Anchored full-string test: does `rx` (already bracketed by `^`/`$` in
the source) match the whole input? -/
def rxFullTest (rx : Rx) (t : List Char) : Bool :=
  (mrun rx (t.length + 1) none t).any fun m => m.rest.isEmpty

/-- `text.replace(/\r\n/g, "\n")` on the character-list model: every
(non-overlapping, left-to-right) CR-LF pair collapses to LF. -/
def replaceCRLF : List Char → List Char
  | [] => []
  | [c] => [c]
  | c :: d :: r =>
    if c = '\r' && d = '\n' then '\n' :: replaceCRLF r
    else c :: replaceCRLF (d :: r)

/-- Split at every character satisfying `sep`, keeping empty pieces (the
callers of `split(/[...]+/)` in the source filter empty/trimmed pieces
afterwards, so splitting at each separator character is extensionally the
same as splitting at maximal separator runs). -/
def splitP (sep : Char → Bool) : List Char → List (List Char)
  | [] => [[]]
  | c :: r =>
    if sep c then [] :: splitP sep r
    else
      match splitP sep r with
      | [] => [[c]]
      | l :: ls => (c :: l) :: ls

/-- `s.trim()`: strip JS whitespace from both ends. -/
def trimL (l : List Char) : List Char :=
  ((l.dropWhile isJsWs).reverse.dropWhile isJsWs).reverse

/-! ### Pattern combinators -/

/-- Sequence a list of patterns. -/
def rxCat (l : List Rx) : Rx := l.foldr Rx.seq Rx.eps

/-- Left-preferring alternation of a list of patterns (source order). -/
def rxAlts : List Rx → Rx
  | [] => Rx.cls fun _ => false
  | [r] => r
  | r :: rs => Rx.alt r (rxAlts rs)

/-- Exact character. -/
def chE (c : Char) : Rx := .cls fun d => d = c

/-- Character up to the case folding of the `i` flag. -/
def chCI (c : Char) : Rx := .cls fun d => foldC d = foldC c

/-- Case-sensitive literal. -/
def litS (s : String) : Rx := rxCat (s.data.map chE)

/-- Case-insensitive literal (`i` flag). -/
def litCI (s : String) : Rx := rxCat (s.data.map chCI)

/-- Character class listing its members, e.g. `[-+]`. -/
def clsOf (s : String) : Rx := .cls fun d => s.data.contains d

/-- Case-insensitive character class, e.g. `[äa]` under the `i` flag. -/
def clsOfCI (s : String) : Rx :=
  .cls fun d => (s.data.map foldC).contains (foldC d)

/-- The JS `\d` class. -/
def digitRx : Rx := .cls isDigitC

/-- Exactly `n` digits, `\d{n}`. -/
def digitsN (n : Nat) : Rx := rxCat (List.replicate n digitRx)

/-- The JS `\s` class. -/
def wsRx : Rx := .cls isJsWs

/-- `\s+`. -/
def wsPlus : Rx := .rep wsRx 1

/-- `\s*`. -/
def wsStar : Rx := .rep wsRx 0

/-- `[1-9]`. -/
def d1to9 : Rx := .cls fun c => '1' ≤ c && c ≤ '9'

/-- ASCII letter, the class `[A-Z]` under the `i` flag. -/
def isAsciiAlphaCI (c : Char) : Bool := 'a' ≤ foldC c && foldC c ≤ 'z'

/-- A word followed by an optional case-insensitive tail,
e.g. `jan(?:uary)?`. -/
def wordOpt (a b : String) : Rx := .seq (litCI a) (.opt (litCI b))

/-! ### The regular expressions of `src/lib/pii.ts`

Each definition transliterates one regex of the source, keeping the source's
alternative order (which fixes the backtracking priority). -/

/-- Core of the personal-number shape (also reused by the phone detector's
exclusion test): `(?:\d{2}|\d{4})(?:0[1-9]|1[0-2])(?:0[1-9]|[12]\d|3[01])[-+]\d{4}`. -/
def pnrCoreRx : Rx :=
  rxCat [.alt (digitsN 2) (digitsN 4),
    .alt (.seq (chE '0') d1to9) (.seq (chE '1') (clsOf "012")),
    rxAlts [.seq (chE '0') d1to9, .seq (clsOf "12") digitRx,
      .seq (chE '3') (clsOf "01")],
    clsOf "-+", digitsN 4]

/-- `detectSwedishPersonalNumber`'s regex: `\b` + core + `\b`. -/
def pnrRx : Rx := rxCat [.wb, pnrCoreRx, .wb]

/-- `(?:19|20)\d{2}` year part of the numeric date forms. -/
def yearRx : Rx := rxCat [.alt (litS "19") (litS "20"), digitsN 2]

/-- `(?:0?[1-9]|1[0-2])` month with optional leading zero. -/
def month1or2 : Rx :=
  .alt (.seq (.opt (chE '0')) d1to9) (.seq (chE '1') (clsOf "012"))

/-- `(?:0?[1-9]|[12]\d|3[01])` day with optional leading zero. -/
def day1or2 : Rx :=
  rxAlts [.seq (.opt (chE '0')) d1to9, .seq (clsOf "12") digitRx,
    .seq (chE '3') (clsOf "01")]

/-- Date separator class: hyphen, slash or dot. -/
def dateSepRx : Rx := clsOf "-/."

/-- `isoLikeRe` of `detectDate`. -/
def isoLikeRx : Rx :=
  rxCat [.wb, yearRx, dateSepRx, month1or2, dateSepRx, day1or2, .wb]

/-- `dmyRe` of `detectDate`. -/
def dmyRx : Rx :=
  rxCat [.wb, day1or2, dateSepRx, month1or2, dateSepRx, yearRx, .wb]

/-- `mdyRe` of `detectDate`. -/
def mdyRx : Rx :=
  rxCat [.wb, month1or2, dateSepRx, day1or2, dateSepRx, yearRx, .wb]

/-- `monthRe` of `detectDate`: EN + SV month names and abbreviations, in the
source's alternative order, `i` flag. -/
def monthRx : Rx :=
  rxCat [.wb,
    rxAlts [wordOpt "jan" "uary", wordOpt "feb" "ruary", wordOpt "mar" "ch",
      wordOpt "apr" "il", litCI "may", wordOpt "jun" "e", wordOpt "jul" "y",
      wordOpt "aug" "ust",
      .seq (litCI "sep") (.opt (.seq (litCI "t") (.opt (litCI "ember")))),
      wordOpt "oct" "ober", wordOpt "nov" "ember", wordOpt "dec" "ember",
      litCI "januari", litCI "februari", litCI "mars", litCI "april",
      litCI "maj", litCI "juni", litCI "juli", litCI "augusti",
      litCI "september", litCI "oktober", litCI "november", litCI "december",
      litCI "okt", litCI "sep", litCI "aug", litCI "jun", litCI "jul",
      litCI "dec", litCI "nov", litCI "mar", litCI "apr"],
    .wb]

/-- `time24hRe`: `\b(?:[01]?\d|2[0-3]):[0-5]\d\b`. -/
def time24Rx : Rx :=
  rxCat [.wb,
    .alt (.seq (.opt (clsOf "01")) digitRx) (.seq (chE '2') (clsOf "0123")),
    chE ':', clsOf "012345", digitRx, .wb]

/-- `timeAmPmRe`: `\b(?:0?[1-9]|1[0-2])\s?(?:am|pm)\b`, `i` flag. -/
def timeAmPmRx : Rx :=
  rxCat [.wb, month1or2, .opt wsRx, .alt (litCI "am") (litCI "pm"), .wb]

/-- `timeWordsRe`. -/
def timeWordsRx : Rx :=
  rxCat [.wb,
    rxAlts [litCI "noon", litCI "midnight", litCI "tonight", litCI "overnight",
      rxCat [litCI "last", wsPlus, litCI "night"],
      rxCat [litCI "yesterday", wsPlus, litCI "night"]],
    .wb]

/-- `timeOfDayRe`: `\b(?:during|in|at|on)\s+(?:the\s+)?(?:night|morning|afternoon|evening)\b`. -/
def timeOfDayRx : Rx :=
  rxCat [.wb, rxAlts [litCI "during", litCI "in", litCI "at", litCI "on"],
    wsPlus, .opt (.seq (litCI "the") wsPlus),
    rxAlts [litCI "night", litCI "morning", litCI "afternoon",
      litCI "evening"],
    .wb]

/-- `timeRangeRe`: `\b(?:earlier|later)\s+(?:today|tonight|this\s+morning|this\s+afternoon|this\s+evening)\b`. -/
def timeRangeRx : Rx :=
  rxCat [.wb, .alt (litCI "earlier") (litCI "later"), wsPlus,
    rxAlts [litCI "today", litCI "tonight",
      rxCat [litCI "this", wsPlus, litCI "morning"],
      rxCat [litCI "this", wsPlus, litCI "afternoon"],
      rxCat [litCI "this", wsPlus, litCI "evening"]],
    .wb]

/-- `timeOfDayBareRe`: `\b(?:morning|afternoon|evening|night)\b`. -/
def timeOfDayBareRx : Rx :=
  rxCat [.wb,
    rxAlts [litCI "morning", litCI "afternoon", litCI "evening",
      litCI "night"],
    .wb]

/-- `ig[åa]r` fragment of the Swedish temporal patterns. -/
def igarRx : Rx := rxCat [litCI "ig", clsOfCI "åa", litCI "r"]

/-- `timeWordsSvRe`. -/
def timeWordsSvRx : Rx :=
  rxCat [.wb,
    rxAlts [rxCat [litCI "i", wsPlus, litCI "natt"],
      rxCat [litCI "ikv", clsOfCI "äa", litCI "ll"],
      rxCat [litCI "i", wsPlus, litCI "morse"],
      rxCat [litCI "i", wsPlus, litCI "morgon"],
      rxCat [litCI "i", wsPlus, litCI "kv", clsOfCI "äa", litCI "ll"],
      rxCat [igarRx, wsPlus, litCI "kv", clsOfCI "äa", litCI "ll"],
      rxCat [igarRx, wsPlus, litCI "natt"],
      rxCat [litCI "kl", .opt (chE '.'), wsStar, .repB digitRx 1 2,
        .opt (rxCat [chE ':', clsOf "012345", digitRx])]],
    .wb]

/-- `timeOfDaySvRe`: `\b(?:under|p[åa])\s+(?:natten|morgonen|f[öo]rmiddagen|eftermiddagen|kv[äa]llen|dagen)\b`. -/
def timeOfDaySvRx : Rx :=
  rxCat [.wb, .alt (litCI "under") (.seq (litCI "p") (clsOfCI "åa")), wsPlus,
    rxAlts [litCI "natten", litCI "morgonen",
      rxCat [litCI "f", clsOfCI "öo", litCI "rmiddagen"],
      litCI "eftermiddagen",
      rxCat [litCI "kv", clsOfCI "äa", litCI "llen"], litCI "dagen"],
    .wb]

/-- `timeOfDayBareSvRe`. -/
def timeOfDayBareSvRx : Rx :=
  rxCat [.wb,
    rxAlts [litCI "morgon", rxCat [litCI "f", clsOfCI "öo", litCI "rmiddag"],
      litCI "eftermiddag", rxCat [litCI "kv", clsOfCI "äa", litCI "ll"],
      litCI "natt", litCI "natten", litCI "morgonen",
      rxCat [litCI "f", clsOfCI "öo", litCI "rmiddagen"],
      litCI "eftermiddagen",
      rxCat [litCI "kv", clsOfCI "äa", litCI "llen"]],
    .wb]

/-- `relativeRe`. -/
def relativeRx : Rx :=
  rxCat [.wb,
    rxAlts [litCI "today", litCI "yesterday", litCI "tomorrow",
      rxCat [litCI "day", wsPlus, litCI "before", wsPlus, litCI "yesterday"],
      rxCat [litCI "day", wsPlus, litCI "after", wsPlus, litCI "tomorrow"],
      litCI "recently", litCI "earlier", litCI "later",
      rxCat [litCI "last", wsPlus,
        rxAlts [litCI "night", litCI "week", litCI "month", litCI "year"]],
      rxCat [litCI "next", wsPlus,
        rxAlts [litCI "week", litCI "month", litCI "year"]],
      rxCat [litCI "this", wsPlus,
        rxAlts [litCI "week", litCI "month", litCI "year"]]],
    .wb]

/-- `relativeSvRe`. -/
def relativeSvRx : Rx :=
  rxCat [.wb,
    rxAlts [litCI "idag", igarRx, litCI "imorgon",
      rxCat [litCI "f", clsOfCI "öo", litCI "rrg", clsOfCI "åa", litCI "r"],
      rxCat [clsOfCI "öo", litCI "vermorgon"],
      litCI "nyligen", litCI "tidigare", litCI "senare",
      rxCat [litCI "f", clsOfCI "öo", litCI "rra", wsPlus,
        rxAlts [litCI "veckan", rxCat [litCI "m", clsOfCI "åa", litCI "naden"],
          rxCat [clsOfCI "åa", litCI "ret"]]],
      rxCat [litCI "n", clsOfCI "äa", litCI "sta", wsPlus,
        rxAlts [litCI "vecka", rxCat [litCI "m", clsOfCI "åa", litCI "nad"],
          rxCat [clsOfCI "åa", litCI "r"]]],
      rxCat [litCI "denna", wsPlus,
        rxAlts [litCI "vecka", rxCat [litCI "m", clsOfCI "åa", litCI "nad"],
          rxCat [clsOfCI "åa", litCI "r"]]]],
    .wb]

/-- `weekdayRe`: qualifier + EN weekday (with abbreviations). -/
def weekdayRx : Rx :=
  rxCat [.wb,
    rxAlts [litCI "last", litCI "next", litCI "this", litCI "on"], wsPlus,
    rxAlts [wordOpt "mon" "day",
      .seq (litCI "tue") (.opt (.seq (litCI "s") (.opt (litCI "day")))),
      wordOpt "wed" "nesday",
      .seq (litCI "thu") (.opt (.seq (litCI "r") (.opt (litCI "sday")))),
      wordOpt "fri" "day", wordOpt "sat" "urday", wordOpt "sun" "day"],
    .wb]

/-- `weekdaySvRe`. -/
def weekdaySvRx : Rx :=
  rxCat [.wb,
    rxAlts [rxCat [litCI "f", clsOfCI "öo", litCI "rra"],
      rxCat [litCI "n", clsOfCI "äa", litCI "sta"], litCI "denna",
      .seq (litCI "p") (clsOfCI "åa")],
    wsPlus,
    rxAlts [rxCat [litCI "m", clsOfCI "åa", litCI "ndag"], litCI "tisdag",
      litCI "onsdag", litCI "torsdag", litCI "fredag",
      rxCat [litCI "l", clsOfCI "öo", litCI "rdag"],
      rxCat [litCI "s", clsOfCI "öo", litCI "ndag"]],
    .wb]

/-- `weekdayBareRe`: bare EN weekday names and dotted abbreviations. -/
def weekdayBareRx : Rx :=
  rxCat [.wb,
    rxAlts [litCI "monday", litCI "tuesday", litCI "wednesday",
      litCI "thursday", litCI "friday", litCI "saturday", litCI "sunday",
      wordOpt "mon" ".", wordOpt "tue" ".", wordOpt "tues" ".",
      wordOpt "wed" ".", wordOpt "thu" ".", wordOpt "thur" ".",
      wordOpt "thurs" ".", wordOpt "fri" ".", wordOpt "sat" ".",
      wordOpt "sun" "."],
    .wb]

/-- `weekdayBareSvRe`. -/
def weekdayBareSvRx : Rx :=
  rxCat [.wb,
    rxAlts [rxCat [litCI "m", clsOfCI "åa", litCI "ndag"], litCI "tisdag",
      litCI "onsdag", litCI "torsdag", litCI "fredag",
      rxCat [litCI "l", clsOfCI "öo", litCI "rdag"],
      rxCat [litCI "s", clsOfCI "öo", litCI "ndag"],
      rxCat [litCI "m", clsOfCI "åa", litCI "n", .opt (chE '.')],
      wordOpt "tis" ".", wordOpt "ons" ".", wordOpt "tors" ".",
      wordOpt "fre" ".",
      rxCat [litCI "l", clsOfCI "öo", litCI "r", .opt (chE '.')],
      rxCat [litCI "s", clsOfCI "öo", litCI "n", .opt (chE '.')]],
    .wb]

/-- `(?:[1-9]|[12]\d|3[01])` day-of-month used by the ordinal patterns. -/
def dayNumRx : Rx :=
  rxAlts [d1to9, .seq (clsOf "12") digitRx, .seq (chE '3') (clsOf "01")]

/-- `(?:st|nd|rd|th)`. -/
def ordSuffixRx : Rx :=
  rxAlts [litCI "st", litCI "nd", litCI "rd", litCI "th"]

/-- `ordinalRe`: `\b(?:[1-9]|[12]\d|3[01])(?:st|nd|rd|th)\b`. -/
def ordinalRx : Rx := rxCat [.wb, dayNumRx, ordSuffixRx, .wb]

/-- `(?:day|days|week|weeks|month|months|year|years)`. -/
def durUnitEnRx : Rx :=
  rxAlts [litCI "day", litCI "days", litCI "week", litCI "weeks",
    litCI "month", litCI "months", litCI "year", litCI "years"]

/-- `durationRe`: `\b(?:in\s+\d+\s+unit|\d+\s+unit\s+ago)\b`. -/
def durationRx : Rx :=
  rxCat [.wb,
    .alt (rxCat [litCI "in", wsPlus, .rep digitRx 1, wsPlus, durUnitEnRx])
      (rxCat [.rep digitRx 1, wsPlus, durUnitEnRx, wsPlus, litCI "ago"]),
    .wb]

/-- `(?:dag|dagar|vecka|veckor|m[åa]nad|m[åa]nader|[åa]r)`. -/
def durUnitSvRx : Rx :=
  rxAlts [litCI "dag", litCI "dagar", litCI "vecka", litCI "veckor",
    rxCat [litCI "m", clsOfCI "åa", litCI "nad"],
    rxCat [litCI "m", clsOfCI "åa", litCI "nader"],
    rxCat [clsOfCI "åa", litCI "r"]]

/-- `durationSvRe`: `\b(?:om\s+\d+\s+unit|f[öo]r\s+\d+\s+unit\s+sedan)\b`. -/
def durationSvRx : Rx :=
  rxCat [.wb,
    .alt (rxCat [litCI "om", wsPlus, .rep digitRx 1, wsPlus, durUnitSvRx])
      (rxCat [litCI "f", clsOfCI "öo", litCI "r", wsPlus, .rep digitRx 1,
        wsPlus, durUnitSvRx, wsPlus, litCI "sedan"]),
    .wb]

/-- `ordinalRelativeRe`: `\b(?:[1-9]|[12]\d|3[01])(?:st|nd|rd|th)\s+(?:last|next|this)\s+month\b`. -/
def ordinalRelativeRx : Rx :=
  rxCat [.wb, dayNumRx, ordSuffixRx, wsPlus,
    rxAlts [litCI "last", litCI "next", litCI "this"], wsPlus, litCI "month",
    .wb]

/-- TitleCase token `[\p{Lu}][\p{Ll}]+(?:-[\p{Lu}][\p{Ll}]+)?` of
`detectFullNames`. -/
def capTokRx : Rx :=
  rxCat [.cls isUpperL, .rep (.cls isLowerL) 1,
    .opt (rxCat [chE '-', .cls isUpperL, .rep (.cls isLowerL) 1])]

/-- `detectFullNames`'s regex: two TitleCase tokens. -/
def fullNameRx : Rx := rxCat [.wb, capTokRx, wsPlus, capTokRx, .wb]

/-- `detectInitialLastName`'s regex:
`\b[\p{Lu}]\.\s*[\p{Lu}][\p{Ll}]+(?:-[\p{Lu}][\p{Ll}]+)?\b`. -/
def initialLastRx : Rx :=
  rxCat [.wb, .cls isUpperL, chE '.', wsStar, .cls isUpperL,
    .rep (.cls isLowerL) 1,
    .opt (rxCat [chE '-', .cls isUpperL, .rep (.cls isLowerL) 1]), .wb]

/-- `labelPrefixRe` of `detectNameLabels`:
`\b(?:name|patient(?:en)?|pt|namn)\b\s*[:\-]\s*`. -/
def labelLeadRx : Rx :=
  rxCat [.wb,
    rxAlts [litCI "name", wordOpt "patient" "en", litCI "pt", litCI "namn"],
    .wb, wsStar, clsOf ":-", wsStar]

/-- `[\p{L}]{2,}` letter token. -/
def letTok2 : Rx := .rep (.cls isLetterL) 2

/-- `nameRe` of `detectNameLabels` (anchored at the start of the rest):
`^([\p{L}]{2,})(?:\s+([\p{L}]{2,}))?\b`. -/
def nameRx : Rx :=
  rxCat [.grp letTok2, .opt (.seq wsPlus (.grp letTok2)), .wb]

/-- Hyphenated letter token `[\p{L}]{2,}(?:-[\p{L}]{2,})?` of
`detectNameTagLines`. -/
def tagTokRx : Rx := .seq letTok2 (.opt (.seq (chE '-') letTok2))

/-- `detectNameTagLines`'s per-line regex with the leading `^\s*` removed
(the caller drops that whitespace explicitly; see `lineCheckTag`):
`(tok(?:\s+tok)?)\s*:\s+\S`. -/
def tagLineRx : Rx :=
  rxCat [.grp (.seq tagTokRx (.opt (.seq wsPlus tagTokRx))), wsStar, chE ':',
    wsPlus, .cls fun c => !isJsWs c]

/-- `detectEmail`'s regex: `\b[A-Z0-9._%+-]+@[A-Z0-9.-]+\.[A-Z]{2,}\b`,
`i` flag. -/
def emailRx : Rx :=
  rxCat [.wb,
    .rep (.cls fun c =>
      isAsciiAlphaCI c || isDigitC c || c = '.' || c = '_' || c = '%' ||
      c = '+' || c = '-') 1,
    chE '@',
    .rep (.cls fun c => isAsciiAlphaCI c || isDigitC c || c = '.' || c = '-')
      1,
    chE '.', .rep (.cls isAsciiAlphaCI) 2, .wb]

/-- `candidateRe` of `detectPhoneNumber`:
`\b(?:\+?46|0)?(?:[\s-]?\d){7,}\b`. -/
def phoneCandidateRx : Rx :=
  rxCat [.wb,
    .opt (.alt (.seq (.opt (chE '+')) (litS "46")) (litS "0")),
    .rep (.seq (.opt (.cls fun c => isJsWs c || c = '-')) digitRx) 7, .wb]

/-- `detectPatientIdOrJournalNumber`'s regex. -/
def patientIdRx : Rx :=
  rxCat [.wb,
    rxAlts [rxCat [litCI "patient",
        .opt (rxCat [wsStar, .opt (chE '-'), wsStar]),
        rxAlts [litCI "id", litCI "nr", litCI "no"]],
      .seq (litCI "journal") (.opt (.alt (litCI "nummer") (litCI "nr"))),
      rxCat [litCI "journ", .opt (rxCat [wsStar, .opt (chE '-'), wsStar]),
        .alt (litCI "id") (litCI "nr")],
      litCI "mrn", litCI "pid"],
    .wb, wsStar, .opt (clsOf ":#"), wsStar,
    .cls (fun c => isAsciiAlphaCI c || isDigitC c),
    .rep (.cls fun c => isAsciiAlphaCI c || isDigitC c || c = '-') 2, .wb]

/-- `streetSuffixRe` of `detectAddress`:
`\b[\p{L}][\p{L}.-]{1,40}(?:gatan|vägen|v[aä]g|gränd|all[eé]n|gata)\s+\d{1,4}[A-Z]?\b`. -/
def streetSuffixRx : Rx :=
  rxCat [.wb, .cls isLetterL,
    .repB (.cls fun c => isLetterL c || c = '.' || c = '-') 1 40,
    rxAlts [litCI "gatan", litCI "vägen",
      rxCat [litCI "v", clsOfCI "aä", litCI "g"], litCI "gränd",
      rxCat [litCI "all", clsOfCI "eé", litCI "n"], litCI "gata"],
    wsPlus, .repB digitRx 1 4, .opt (.cls isAsciiAlphaCI), .wb]

/-- `streetWordRe` of `detectAddress`:
`\b[\p{L}][\p{L}\s.-]{1,40}\s+(?:street|st\.?|road|rd\.?|avenue|ave\.?)\s+\d{1,4}[A-Z]?\b`. -/
def streetWordRx : Rx :=
  rxCat [.wb, .cls isLetterL,
    .repB (.cls fun c => isLetterL c || isJsWs c || c = '.' || c = '-') 1 40,
    wsPlus,
    rxAlts [litCI "street", wordOpt "st" ".", litCI "road", wordOpt "rd" ".",
      litCI "avenue", wordOpt "ave" "."],
    wsPlus, .repB digitRx 1 4, .opt (.cls isAsciiAlphaCI), .wb]

/-- `boxRe` of `detectAddress`: `\b(?:box|p\.?\s*o\.?\s*box)\s+\d{1,6}\b`. -/
def boxRx : Rx :=
  rxCat [.wb,
    .alt (litCI "box")
      (rxCat [litCI "p", .opt (chE '.'), wsStar, litCI "o", .opt (chE '.'),
        wsStar, litCI "box"]),
    wsPlus, .repB digitRx 1 6, .wb]

/-- `detectWardBedTimestampCombo`'s regex. -/
def wardBedRx : Rx :=
  rxCat [.wb,
    rxAlts [wordOpt "avd" "elning", litCI "ward", litCI "unit"],
    wsStar, .opt (chE '#'), wsStar, .repB digitRx 1 3,
    .repB (.cls fun c => isJsWs c || c = ',' || c = ';' || c = ':' || c = '-')
      0 20,
    rxAlts [rxCat [litCI "s", clsOfCI "aä", litCI "ng"], litCI "bed",
      litCI "plats"],
    wsStar, .opt (chE '#'), wsStar, .repB digitRx 1 3,
    .repB (.cls fun c => isJsWs c || c = ',' || c = ';' || c = ':' || c = '-')
      0 40,
    .opt (.alt (.seq (litCI "kl") (.opt (chE '.'))) (litCI "at")), wsStar,
    .alt (.seq (clsOf "01") digitRx) (.seq (chE '2') (clsOf "0123")),
    chE ':', clsOf "012345", digitRx, .wb]

/-! The patterns of `detectPreciseAge`. -/

/-- `decadeRe`: `\b(?:\d{2})\s*'?s\b`. -/
def decadeRx : Rx :=
  rxCat [.wb, digitsN 2, wsStar, .opt (chE '\''), litCI "s", .wb]

/-- `decadeSvRe`: `\b(?:\d{2})\s*[-–]?\s*årsåldern\b`. -/
def decadeSvRx : Rx :=
  rxCat [.wb, digitsN 2, wsStar, .opt (clsOf "-–"), wsStar,
    litCI "årsåldern", .wb]

/-- `(?:-|–|to)` range token used by the range patterns. -/
def rangeTokRx : Rx := rxAlts [litCI "-", litCI "–", litCI "to"]

/-- `\d{1,2}` bound of a range. -/
def d1or2 : Rx := .repB digitRx 1 2

/-- `rangeRe`: `\b(?:\d{1,2})\s*(?:-|–|to)\s*(?:\d{1,2})\b`. -/
def rangeRx : Rx :=
  rxCat [.wb, d1or2, wsStar, rangeTokRx, wsStar, d1or2, .wb]

/-- `(?:y\/o|yo|yrs?\s*old\b|years?\s*old\b|year[-\s]?old\b)` age unit. -/
def ageUnitEnRx : Rx :=
  rxAlts [litCI "y/o", litCI "yo",
    rxCat [litCI "yr", .opt (litCI "s"), wsStar, litCI "old", .wb],
    rxCat [litCI "year", .opt (litCI "s"), wsStar, litCI "old", .wb],
    rxCat [litCI "year", .opt (.cls fun c => c = '-' || isJsWs c),
      litCI "old", .wb]]

/-- `(?:årig\b|år\b(?:\s*gammal\b)?)` Swedish age unit. -/
def ageUnitSvRx : Rx :=
  .alt (.seq (litCI "årig") .wb)
    (rxCat [litCI "år", .wb, .opt (rxCat [wsStar, litCI "gammal", .wb])])

/-- `rangeWithAgeUnitEnRe`. -/
def rangeAgeUnitEnRx : Rx :=
  rxCat [.wb, d1or2, wsStar, rangeTokRx, wsStar, d1or2, wsStar, ageUnitEnRx,
    .wb]

/-- `rangeWithAgeUnitSvRe`. -/
def rangeAgeUnitSvRx : Rx :=
  rxCat [.wb, d1or2, wsStar, rangeTokRx, wsStar, d1or2, wsStar, ageUnitSvRx,
    .wb]

/-- `(?:[1-9]\d)` two-digit age. -/
def ageNumRx : Rx := .seq d1to9 digitRx

/-- `enPreciseRe`: `\b(?:[1-9]\d)\s*(?:y\/o|yo|yrs?\s*old\b|years?\s*old\b|year[-\s]?old\b)\b`. -/
def enPreciseRx : Rx := rxCat [.wb, ageNumRx, wsStar, ageUnitEnRx, .wb]

/-- `enAgeLabelRe`: `\b(?:age|aged)\s*[:\-]?\s*(?:[1-9]\d)(?:\s*(?:-|–|to)\s*(?:[1-9]\d))?\b`. -/
def enAgeLabelRx : Rx :=
  rxCat [.wb, .alt (litCI "age") (litCI "aged"), wsStar, .opt (clsOf ":-"),
    wsStar, ageNumRx, .opt (rxCat [wsStar, rangeTokRx, wsStar, ageNumRx]),
    .wb]

/-- `svPreciseRe`: `\b(?:[1-9]\d)\s*(?:[-–]\s*)?(?:årig\b|år\b(?:\s*gammal\b)?)\b`. -/
def svPreciseRx : Rx :=
  rxCat [.wb, ageNumRx, wsStar, .opt (.seq (clsOf "-–") wsStar), ageUnitSvRx,
    .wb]

/-- `svAgeLabelRe`: `\b(?:ålder)\s*[:\-]?\s*(?:[1-9]\d)(?:\s*(?:-|–|to)\s*(?:[1-9]\d))?\b`. -/
def svAgeLabelRx : Rx :=
  rxCat [.wb, litCI "ålder", wsStar, .opt (clsOf ":-"), wsStar, ageNumRx,
    .opt (rxCat [wsStar, rangeTokRx, wsStar, ageNumRx]), .wb]

/-- `ageSexRe`: `\b(?:[1-9]\d)\s*(?:[MF])\b` (case-sensitive). -/
def ageSexRx : Rx := rxCat [.wb, ageNumRx, wsStar, clsOf "MF", .wb]

/-! ### The result model (`IdentifierReason`, `IdentifierMatch`,
`IdentifierDetectionResult`) -/

/-- The closed enumeration of identifier reasons, as in the source. -/
inductive IdentifierReason : Type
  | full_name
  | initial_last_name
  | name_label
  | name_tag
  | name_in_prose
  | date
  | temporal_reference
  | precise_age
  | swedish_personal_number
  | patient_id_or_journal_number
  | email
  | phone_number
  | address
  | ward_bed_timestamp
  deriving DecidableEq, Repr

/-- `IdentifierMatch` from the source; the field `match` is a Lean keyword,
so it is called `matched` here. -/
structure IdentifierMatch where
  reason : IdentifierReason
  matched : List Char
  deriving DecidableEq, Repr

/-- `IdentifierDetectionResult` from the source (`matches` is a Lean
keyword, hence the guillemets). -/
structure IdentifierDetectionResult where
  hasIdentifiers : Bool
  reasons : List IdentifierReason
  «matches» : List IdentifierMatch
  deriving DecidableEq, Repr

/-- Accumulator form of `uniq`: `seen` holds the elements already kept. -/
def uniqAux {α : Type} [DecidableEq α] (seen : List α) : List α → List α
  | [] => []
  | x :: xs =>
    if seen.contains x then uniqAux seen xs
    else x :: uniqAux (x :: seen) xs

/-- `uniq` from the source (`Array.from(new Set(arr))`): keep the first
occurrence of each element, preserving first-seen order. -/
def uniq {α : Type} [DecidableEq α] (arr : List α) : List α := uniqAux [] arr

/-! ### The fourteen detectors -/

/-- `detectSwedishPersonalNumber`. -/
def detectSwedishPersonalNumber (t : List Char) : Option (List Char) :=
  firstRegexMatch t pnrRx

/-- `detectDate`: numeric forms in order, else bilingual month-name
mention. -/
def detectDate (t : List Char) : Option (List Char) :=
  match (firstRegexMatch t isoLikeRx).orElse (fun _ =>
      (firstRegexMatch t dmyRx).orElse fun _ => firstRegexMatch t mdyRx) with
  | some numeric => some numeric
  | none => firstRegexMatch t monthRx

/-- The patterns of `detectTemporalReference` in the order the source's
cascade of early returns tries them. -/
def temporalPatterns : List Rx :=
  [timeWordsRx, timeOfDayRx, timeRangeRx, timeOfDayBareRx, timeWordsSvRx,
   timeOfDaySvRx, timeOfDayBareSvRx, time24Rx, timeAmPmRx, relativeRx,
   relativeSvRx, weekdayRx, weekdaySvRx, weekdayBareRx, weekdayBareSvRx,
   ordinalRx, durationRx, durationSvRx, ordinalRelativeRx]

/-- `detectTemporalReference`: the source's cascade of early returns is the
first non-null `firstRegexMatch` along `temporalPatterns`. -/
def detectTemporalReference (t : List Char) : Option (List Char) :=
  temporalPatterns.findSome? fun rx => firstRegexMatch t rx

/-- `detectFullNames`. -/
def detectFullNames (t : List Char) : Option (List Char) :=
  firstRegexMatch t fullNameRx

/-- `detectInitialLastName`. -/
def detectInitialLastName (t : List Char) : Option (List Char) :=
  firstRegexMatch t initialLastRx

/-- The `notAName` set of `detectNameLabels` (already lowercase in the
source; the duplicate "patient" entry is kept). -/
def notANameLabel : List (List Char) :=
  (["patient", "pt", "name", "patienten", "patient", "namn"].map
    String.data)

/-- The class `[A-ZÅÄÖ]` of the source's ALL-CAPS rejection tests. -/
def isCapSv (c : Char) : Bool :=
  ('A' ≤ c && c ≤ 'Z') || c = 'Å' || c = 'Ä' || c = 'Ö'

/-- `/^[A-ZÅÄÖ]+$/.test` -/
def allCapsSv (l : List Char) : Bool := !l.isEmpty && l.all isCapSv

/-- The body of `detectNameLabels`'s loop for one label-prefix match: try
`nameRe` at the start of the (already trimmed) rest of the text and run the
source's reject checks (`continue` is `none`). -/
def nameLabelAt (rest : List Char) : Option (List Char) :=
  match (mrun nameRx (rest.length + 1) none rest).head? with
  | none => none
  | some nm =>
    match nm.caps with
    | [] => none
    | w1c :: more =>
      let w1 := trimL w1c
      let w2 := match more with
        | [] => []
        | w :: _ => trimL w
      if w1.isEmpty then none
      else if w1.any isDigitC || (!w2.isEmpty && w2.any isDigitC) then none
      else if allCapsSv w1 || (!w2.isEmpty && allCapsSv w2) then none
      else if notANameLabel.contains (lowerL w1) ||
          (!w2.isEmpty && notANameLabel.contains (lowerL w2)) then none
      else some (if w2.isEmpty then w1 else w1 ++ ' ' :: w2)

/-- `detectNameLabels`: for every label-prefix match, try `nameRe` on the
trimmed rest and run the source's reject checks. -/
def detectNameLabels (t : List Char) : Option (List Char) :=
  (allMatches labelLeadRx t).findSome? fun pm =>
    nameLabelAt ((t.drop (pm.1 + pm.2.length)).dropWhile isJsWs)

/-- The `notAName` set shared verbatim by `detectNameTagLines` and
`detectNameInProse` (vital-sign tags etc., already lowercase; the duplicate
"patient" entry is kept). -/
def notANameVitals : List (List Char) :=
  (["patient", "pt", "name", "news", "bp", "hr", "rr", "temp", "spo2",
    "sat", "ecg", "ekg", "patienten", "patient", "namn"].map String.data)

/-- The class `[A-ZÅÄÖ\s-]` used by `detectNameTagLines` to reject ALL-CAPS
tags. -/
def isCapWsDash (c : Char) : Bool := isCapSv c || isJsWs c || c = '-'

/-- `/^[A-ZÅÄÖ\s-]+$/.test` -/
def allCapsTagSv (l : List Char) : Bool := !l.isEmpty && l.all isCapWsDash

/-- One line of `detectNameTagLines`.  The source regex is anchored
`^\s*(...)`; the capture group begins with a letter class, which cannot
match whitespace, so the greedy `\s*` necessarily consumes exactly the
leading whitespace of the line — modelled by `dropWhile isJsWs`. -/
def lineCheckTag (line : List Char) : Option (List Char) :=
  match (mrun tagLineRx ((line.dropWhile isJsWs).length + 1) none
      (line.dropWhile isJsWs)).head? with
  | none => none
  | some m =>
    match m.caps with
    | [] => none
    | cand :: _ =>
      let candidate := trimL cand
      if candidate.isEmpty then none
      else if candidate.any isDigitC then none
      else if allCapsTagSv candidate then none
      else if notANameVitals.contains (lowerL candidate) then none
      else some candidate

/-- The newline separator of `split("\n")`. -/
def sepNl : Char → Bool := fun c => c = '\n'

/-- `detectNameTagLines`: first line whose tag passes the checks. -/
def detectNameTagLines (t : List Char) : Option (List Char) :=
  (splitP sepNl (replaceCRLF t)).findSome? lineCheckTag

/-- Full-token test of `nameTokenRe` (`^[\p{L}]{2,}(?:-[\p{L}]{2,})?$`). -/
def nameTokenOK (tk : List Char) : Bool :=
  rxFullTest tagTokRx tk

/-- The clinical-verb vocabulary of `detectNameInProse` (already
lowercase). -/
def verbsProse : List (List Char) :=
  (["reports", "complains", "states", "denies", "presents", "presented",
    "arrived", "comes", "says", "feels", "notes", "admits", "seeks",
    "seeking", "uppger", "nekar", "beskriver", "söker", "kommer", "anger",
    "mår"].map String.data)

/-- One sentence-ish chunk of `detectNameInProse`, on its token list
(`t1`, `t2`, `t3` of the source are `parts.getD 0/1/2 []`): flag a one- or
two-token name immediately followed by a clinical verb.  `none` models both
a non-match and the source's `continue`. -/
def chunkCheckParts (parts : List (List Char)) : Option (List Char) :=
  if parts.length < 2 then none
  else if nameTokenOK (parts.getD 0 []) &&
      !(parts.getD 0 []).any isDigitC && !allCapsSv (parts.getD 0 []) &&
      !notANameVitals.contains (lowerL (parts.getD 0 [])) &&
      verbsProse.contains (lowerL (parts.getD 1 [])) then
    some (parts.getD 0 [])
  else if decide (3 ≤ parts.length) && nameTokenOK (parts.getD 0 []) &&
      !notANameVitals.contains (lowerL (parts.getD 0 [])) &&
      nameTokenOK (parts.getD 1 []) &&
      !notANameVitals.contains (lowerL (parts.getD 1 [])) &&
      verbsProse.contains (lowerL (parts.getD 2 [])) then
    if (parts.getD 0 []).any isDigitC || (parts.getD 1 []).any isDigitC
      then none
    else if allCapsSv (parts.getD 0 []) || allCapsSv (parts.getD 1 [])
      then none
    else some (parts.getD 0 [] ++ ' ' :: parts.getD 1 [])
  else none

/-- One sentence-ish chunk: split on whitespace
(`chunk.split(/\s+/).filter(Boolean)`) and check the tokens. -/
def chunkCheckProse (chunk : List Char) : Option (List Char) :=
  chunkCheckParts ((splitP isJsWs chunk).filter (· ≠ []))

/-- The sentence separator class of `split(/[.!?\n]+/)`. -/
def sepProse : Char → Bool :=
  fun c => c = '.' || c = '!' || c = '?' || c = '\n'

/-- `detectNameInProse`: split into sentence-ish chunks
(`split(/[.!?\n]+/)`, trimmed, empties removed) and check each chunk. -/
def detectNameInProse (t : List Char) : Option (List Char) :=
  (((splitP sepProse (replaceCRLF t)).map trimL).filter
    (· ≠ [])).findSome? chunkCheckProse

/-- `detectEmail`. -/
def detectEmail (t : List Char) : Option (List Char) :=
  firstRegexMatch t emailRx

/-- `personnummerLikeRe.test`: anchored `^\s*core\s*$`. -/
def pnrLike (l : List Char) : Bool :=
  rxFullTest (rxCat [wsStar, pnrCoreRx, wsStar]) l

/-- `detectPhoneNumber`: first candidate with at least 7 digits that does
not look like a Swedish personal number. -/
def detectPhoneNumber (t : List Char) : Option (List Char) :=
  ((allMatches phoneCandidateRx t).find? fun m => !pnrLike m.2).map
    fun m => m.2

/-- `detectPatientIdOrJournalNumber`. -/
def detectPatientIdOrJournalNumber (t : List Char) : Option (List Char) :=
  firstRegexMatch t patientIdRx

/-- `detectAddress`: street-suffix, street-word or box patterns in order. -/
def detectAddress (t : List Char) : Option (List Char) :=
  (firstRegexMatch t streetSuffixRx).orElse fun _ =>
  (firstRegexMatch t streetWordRx).orElse fun _ =>
  firstRegexMatch t boxRx

/-- `detectWardBedTimestampCombo`. -/
def detectWardBedTimestampCombo (t : List Char) : Option (List Char) :=
  firstRegexMatch t wardBedRx

/-- The allowed spans contributed by one "acceptable pattern" regex of
`detectPreciseAge` (`addAllowed` in the source): character offsets
`[start, end)` of every match. -/
def addAllowedOf (t : List Char) (rx : Rx) : List (Nat × Nat) :=
  (allMatches rx t).map fun m => (m.1, m.1 + m.2.length)

/-- All allowed spans of `detectPreciseAge`, in the source's `addAllowed`
call order. -/
def allowedSpansOf (t : List Char) : List (Nat × Nat) :=
  addAllowedOf t decadeRx ++ addAllowedOf t decadeSvRx ++
  addAllowedOf t rangeRx ++ addAllowedOf t rangeAgeUnitEnRx ++
  addAllowedOf t rangeAgeUnitSvRx

/-- `isWithinAllowed` of `detectPreciseAge`: some span fully contains
`[st, en)`. -/
def isWithinAllowed (spans : List (Nat × Nat)) (st en : Nat) : Bool :=
  spans.any fun sp => sp.1 ≤ st && en ≤ sp.2

/-- `/(?:-|–|to)/i.test(hit)`: the matched label contains an explicit range
token. -/
def containsRangeTok (hit : List Char) : Bool :=
  (firstRegexMatch hit rangeTokRx).isSome

/-- The candidate patterns of `detectPreciseAge` with their `canBeRange`
flags, in source order. -/
def ageCandidates : List (Rx × Bool) :=
  [(enPreciseRx, false), (enAgeLabelRx, true), (svPreciseRx, false),
    (svAgeLabelRx, true), (ageSexRx, false)]

/-- `detectPreciseAge`: first candidate match that is not inside an allowed
span and is not itself an explicit range. -/
def detectPreciseAge (t : List Char) : Option (List Char) :=
  ageCandidates.findSome? fun c =>
    (allMatches c.1 t).findSome? fun m =>
      if isWithinAllowed (allowedSpansOf t) m.1 (m.1 + m.2.length) then none
      else if c.2 && containsRangeTok m.2 then none
      else some m.2

/-! ### The orchestrator (`detectIdentifiers`) -/

/-- The fourteen detector invocations of `detectIdentifiers`, in the
source's `push` order. -/
def detectorResults (t : List Char) :
    List (IdentifierReason × Option (List Char)) :=
  [(.swedish_personal_number, detectSwedishPersonalNumber t),
   (.date, detectDate t),
   (.temporal_reference, detectTemporalReference t),
   (.precise_age, detectPreciseAge t),
   (.full_name, detectFullNames t),
   (.initial_last_name, detectInitialLastName t),
   (.name_label, detectNameLabels t),
   (.name_tag, detectNameTagLines t),
   (.name_in_prose, detectNameInProse t),
   (.patient_id_or_journal_number, detectPatientIdOrJournalNumber t),
   (.email, detectEmail t),
   (.phone_number, detectPhoneNumber t),
   (.address, detectAddress t),
   (.ward_bed_timestamp, detectWardBedTimestampCombo t)]

/-- The `(reason, match)` pairs accumulated by `push` (a `push` with a null
match contributes nothing). -/
def collectPairs (t : List Char) : List IdentifierMatch :=
  (detectorResults t).filterMap fun p =>
    p.2.map fun m => ⟨p.1, m⟩

/-- The `seen`-set deduplication loop of the orchestrator: keep the first
occurrence of each `(reason, match)` pair — the same first-seen
deduplication as `uniq`.  The source keys pairs by the string
`reason + "::" + match`; since no reason tag is a prefix of another, key
equality coincides with pair equality. -/
def dedupMatches (l : List IdentifierMatch) : List IdentifierMatch :=
  uniqAux [] l

/-- `detectIdentifiers`: run every detector, deduplicate reasons and
matches, and assemble the result. -/
def detectIdentifiers (t : List Char) : IdentifierDetectionResult :=
  let pairs := collectPairs t
  let unique := uniq (pairs.map fun m => m.reason)
  let uniqueMatches := dedupMatches pairs
  ⟨decide (0 < unique.length), unique, uniqueMatches⟩

/-! ### Engine lemmas -/

/-- A JS whitespace character is never a word character. -/
theorem ws_not_word {c : Char} (h : isJsWs c = true) : isWordChar c = false := by
  simp only [isJsWs, Bool.or_eq_true, Bool.and_eq_true, decide_eq_true_eq] at h
  rw [Bool.eq_false_iff]
  intro hw
  simp only [isWordChar, Bool.or_eq_true, Bool.and_eq_true,
    decide_eq_true_eq] at hw
  omega

/-- Destructor for membership in `mchain`. -/
theorem mchain_mem {k : Option Char → List Char → List MRes}
    {pv : Option Char} {m1 m : MRes} (h : m ∈ mchain k pv m1) :
    ∃ m2 ∈ k (lastO pv m1.out) m1.rest,
      m = ⟨m1.out ++ m2.out, m1.caps ++ m2.caps, m2.rest⟩ := by
  simp only [mchain, List.mem_map] at h
  obtain ⟨m2, h2, rfl⟩ := h
  exact ⟨m2, h2, rfl⟩

/-- Every alternative of `mrunRepB` consumes a prefix:
`out ++ rest` is the input. -/
theorem mrunRepB_out_append {body : Option Char → List Char → List MRes}
    (hb : ∀ pv s m, m ∈ body pv s → m.out ++ m.rest = s) :
    ∀ (mx n : Nat) (pv : Option Char) (s : List Char) (m : MRes),
      m ∈ mrunRepB body n mx pv s → m.out ++ m.rest = s := by
  intro mx
  induction mx with
  | zero =>
    intro n pv s m hm
    match n with
    | 0 =>
      simp only [mrunRepB, List.mem_singleton] at hm
      subst hm; rfl
    | n + 1 => simp [mrunRepB] at hm
  | succ mx ih =>
    intro n pv s m hm
    match n with
    | 0 =>
      simp only [mrunRepB, List.mem_append, List.mem_flatMap,
        List.mem_singleton] at hm
      rcases hm with ⟨m1, h1, hch⟩ | rfl
      · obtain ⟨m2, h2, rfl⟩ := mchain_mem hch
        show (m1.out ++ m2.out) ++ m2.rest = s
        rw [List.append_assoc, ih 0 _ _ _ h2, hb _ _ _ h1]
      · rfl
    | n + 1 =>
      simp only [mrunRepB, List.mem_flatMap] at hm
      obtain ⟨m1, h1, hch⟩ := hm
      obtain ⟨m2, h2, rfl⟩ := mchain_mem hch
      show (m1.out ++ m2.out) ++ m2.rest = s
      rw [List.append_assoc, ih n _ _ _ h2, hb _ _ _ h1]

/-- Every alternative of `mrunRep` consumes a prefix. -/
theorem mrunRep_out_append {body : Option Char → List Char → List MRes}
    (hb : ∀ pv s m, m ∈ body pv s → m.out ++ m.rest = s) :
    ∀ (f n : Nat) (pv : Option Char) (s : List Char) (m : MRes),
      m ∈ mrunRep body f n pv s → m.out ++ m.rest = s := by
  intro f
  induction f with
  | zero =>
    intro n pv s m hm
    match n with
    | 0 =>
      simp only [mrunRep, List.mem_singleton] at hm
      subst hm; rfl
    | n + 1 => simp [mrunRep] at hm
  | succ f ih =>
    intro n pv s m hm
    match n with
    | 0 =>
      simp only [mrunRep, List.mem_append, List.mem_flatMap,
        List.mem_filter, List.mem_singleton] at hm
      rcases hm with ⟨m1, ⟨h1, _⟩, hch⟩ | rfl
      · obtain ⟨m2, h2, rfl⟩ := mchain_mem hch
        show (m1.out ++ m2.out) ++ m2.rest = s
        rw [List.append_assoc, ih 0 _ _ _ h2, hb _ _ _ h1]
      · rfl
    | n + 1 =>
      simp only [mrunRep, List.mem_flatMap] at hm
      obtain ⟨m1, h1, hch⟩ := hm
      obtain ⟨m2, h2, rfl⟩ := mchain_mem hch
      show (m1.out ++ m2.out) ++ m2.rest = s
      rw [List.append_assoc, ih n _ _ _ h2, hb _ _ _ h1]

/-- Every alternative of `mrun` consumes a prefix: `out ++ rest` is the
input. -/
theorem mrun_out_append :
    ∀ (rx : Rx) (f : Nat) (pv : Option Char) (s : List Char) (m : MRes),
      m ∈ mrun rx f pv s → m.out ++ m.rest = s := by
  intro rx
  induction rx with
  | eps =>
    intro f pv s m hm
    simp only [mrun, List.mem_singleton] at hm
    subst hm; rfl
  | cls p =>
    intro f pv s m hm
    match s with
    | [] => simp [mrun] at hm
    | c :: r =>
      simp only [mrun] at hm
      split at hm
      · simp only [List.mem_singleton] at hm
        subst hm; rfl
      · simp at hm
  | seq a b iha ihb =>
    intro f pv s m hm
    simp only [mrun, List.mem_flatMap] at hm
    obtain ⟨m1, h1, hch⟩ := hm
    obtain ⟨m2, h2, rfl⟩ := mchain_mem hch
    show (m1.out ++ m2.out) ++ m2.rest = s
    rw [List.append_assoc, ihb _ _ _ _ h2, iha _ _ _ _ h1]
  | alt a b iha ihb =>
    intro f pv s m hm
    simp only [mrun, List.mem_append] at hm
    rcases hm with h | h
    · exact iha _ _ _ _ h
    · exact ihb _ _ _ _ h
  | opt a iha =>
    intro f pv s m hm
    simp only [mrun, List.mem_append, List.mem_singleton] at hm
    rcases hm with h | rfl
    · exact iha _ _ _ _ h
    · rfl
  | repB a n mx iha =>
    intro f pv s m hm
    exact mrunRepB_out_append (fun pv s m h => iha f pv s m h) mx n pv s m hm
  | rep a n iha =>
    intro f pv s m hm
    exact mrunRep_out_append (fun pv s m h => iha f pv s m h) f n pv s m hm
  | wb =>
    intro f pv s m hm
    simp only [mrun] at hm
    split at hm
    · simp only [List.mem_singleton] at hm
      subst hm; rfl
    · simp at hm
  | grp a iha =>
    intro f pv s m hm
    simp only [mrun, List.mem_map] at hm
    obtain ⟨m0, h0, rfl⟩ := hm
    show m0.out ++ m0.rest = s
    exact iha _ _ _ _ h0

/-- `lastO` either ignores the ambient context or returns it unchanged. -/
theorem lastO_cases (pv pv' : Option Char) (o : List Char) :
    lastO pv o = lastO pv' o ∨ (lastO pv o = pv ∧ lastO pv' o = pv') := by
  unfold lastO
  cases o.getLast? <;> simp

/-- `mchain` only consults the ambient context through `isWordO`. -/
theorem mchain_congr {k : Option Char → List Char → List MRes}
    (hk : ∀ pv pv' s, isWordO pv = isWordO pv' → k pv s = k pv' s)
    {pv pv' : Option Char} (h : isWordO pv = isWordO pv') (m1 : MRes) :
    mchain k pv m1 = mchain k pv' m1 := by
  unfold mchain
  rcases lastO_cases pv pv' m1.out with he | ⟨e1, e2⟩
  · rw [he]
  · rw [e1, e2, hk pv pv' _ h]

/-- `mrunRepB` only consults the ambient context through `isWordO`. -/
theorem mrunRepB_pv_congr {body : Option Char → List Char → List MRes}
    (hb : ∀ pv pv' s, isWordO pv = isWordO pv' → body pv s = body pv' s) :
    ∀ (mx n : Nat) (pv pv' : Option Char) (s : List Char),
      isWordO pv = isWordO pv' →
      mrunRepB body n mx pv s = mrunRepB body n mx pv' s := by
  intro mx
  induction mx with
  | zero =>
    intro n pv pv' s h
    match n with
    | 0 => rfl
    | n + 1 => rfl
  | succ mx ih =>
    intro n pv pv' s h
    have hfun : mchain (mrunRepB body 0 mx) pv =
        mchain (mrunRepB body 0 mx) pv' :=
      funext (mchain_congr (fun p p' t ht => ih 0 p p' t ht) h)
    have hfun2 : ∀ k, mchain (mrunRepB body k mx) pv =
        mchain (mrunRepB body k mx) pv' :=
      fun k => funext (mchain_congr (fun p p' t ht => ih k p p' t ht) h)
    match n with
    | 0 =>
      show ((body pv s).flatMap (mchain (mrunRepB body 0 mx) pv)) ++ _ =
        ((body pv' s).flatMap (mchain (mrunRepB body 0 mx) pv')) ++ _
      rw [hb pv pv' s h, hfun]
    | n + 1 =>
      show (body pv s).flatMap (mchain (mrunRepB body n mx) pv) =
        (body pv' s).flatMap (mchain (mrunRepB body n mx) pv')
      rw [hb pv pv' s h, hfun2 n]

/-- `mrunRep` only consults the ambient context through `isWordO`. -/
theorem mrunRep_pv_congr {body : Option Char → List Char → List MRes}
    (hb : ∀ pv pv' s, isWordO pv = isWordO pv' → body pv s = body pv' s) :
    ∀ (f n : Nat) (pv pv' : Option Char) (s : List Char),
      isWordO pv = isWordO pv' →
      mrunRep body f n pv s = mrunRep body f n pv' s := by
  intro f
  induction f with
  | zero =>
    intro n pv pv' s h
    match n with
    | 0 => rfl
    | n + 1 => rfl
  | succ f ih =>
    intro n pv pv' s h
    have hfun : ∀ k, mchain (mrunRep body f k) pv =
        mchain (mrunRep body f k) pv' :=
      fun k => funext (mchain_congr (fun p p' t ht => ih k p p' t ht) h)
    match n with
    | 0 =>
      show (((body pv s).filter _).flatMap (mchain (mrunRep body f 0) pv))
          ++ _ =
        (((body pv' s).filter _).flatMap (mchain (mrunRep body f 0) pv'))
          ++ _
      rw [hb pv pv' s h, hfun 0]
    | n + 1 =>
      show (body pv s).flatMap (mchain (mrunRep body f n) pv) =
        (body pv' s).flatMap (mchain (mrunRep body f n) pv')
      rw [hb pv pv' s h, hfun n]

/-- `mrun` only consults the ambient context through `isWordO`: contexts
with the same word-character status give identical results. -/
theorem mrun_pv_congr :
    ∀ (rx : Rx) (f : Nat) (pv pv' : Option Char) (s : List Char),
      isWordO pv = isWordO pv' → mrun rx f pv s = mrun rx f pv' s := by
  intro rx
  induction rx with
  | eps => intro f pv pv' s h; rfl
  | cls p => intro f pv pv' s h; rfl
  | seq a b iha ihb =>
    intro f pv pv' s h
    show (mrun a f pv s).flatMap (mchain (mrun b f) pv) =
      (mrun a f pv' s).flatMap (mchain (mrun b f) pv')
    rw [iha f pv pv' s h,
      funext (mchain_congr (fun p p' t ht => ihb f p p' t ht) h)]
  | alt a b iha ihb =>
    intro f pv pv' s h
    show mrun a f pv s ++ mrun b f pv s = mrun a f pv' s ++ mrun b f pv' s
    rw [iha f pv pv' s h, ihb f pv pv' s h]
  | opt a iha =>
    intro f pv pv' s h
    show mrun a f pv s ++ _ = mrun a f pv' s ++ _
    rw [iha f pv pv' s h]
  | repB a n mx iha =>
    intro f pv pv' s h
    exact mrunRepB_pv_congr (fun p p' t ht => iha f p p' t ht) mx n pv pv' s h
  | rep a n iha =>
    intro f pv pv' s h
    exact mrunRep_pv_congr (fun p p' t ht => iha f p p' t ht) f n pv pv' s h
  | wb =>
    intro f pv pv' s h
    show (if wordBoundary pv s then _ else _) =
      (if wordBoundary pv' s then _ else _)
    unfold wordBoundary
    rw [h]
  | grp a iha =>
    intro f pv pv' s h
    show (mrun a f pv s).map _ = (mrun a f pv' s).map _
    rw [iha f pv pv' s h]

/-- A pattern guarded by a leading `\b` can match neither at the start of a
whitespace character nor at the end of the input when the preceding context
is a non-word character. -/
theorem mrun_wb_head_dead {r : Rx} {f : Nat} {pv : Option Char}
    {s : List Char} (hpv : isWordO pv = false)
    (hs : s = [] ∨ ∃ c r', s = c :: r' ∧ isJsWs c = true) :
    mrun (.seq .wb r) f pv s = [] := by
  have hwb : wordBoundary pv s = false := by
    rcases hs with rfl | ⟨c, r', rfl, hc⟩
    · simp [wordBoundary, hpv]
    · simp [wordBoundary, hpv, ws_not_word hc]
  show (mrun .wb f pv s).flatMap _ = []
  simp [mrun, hwb]

/-- Captures of `mrunRepB` alternatives are contiguous infixes of the
input. -/
theorem mrunRepB_caps_infix {body : Option Char → List Char → List MRes}
    (hbO : ∀ pv s m, m ∈ body pv s → m.out ++ m.rest = s)
    (hbC : ∀ pv s m, m ∈ body pv s → ∀ cp ∈ m.caps, cp <:+: s) :
    ∀ (mx n : Nat) (pv : Option Char) (s : List Char) (m : MRes),
      m ∈ mrunRepB body n mx pv s → ∀ cp ∈ m.caps, cp <:+: s := by
  intro mx
  induction mx with
  | zero =>
    intro n pv s m hm cp hcp
    match n with
    | 0 =>
      simp only [mrunRepB, List.mem_singleton] at hm
      subst hm; simp at hcp
    | n + 1 => simp [mrunRepB] at hm
  | succ mx ih =>
    intro n pv s m hm cp hcp
    have step : ∀ (k : Nat) (m1 m2 : MRes), m1 ∈ body pv s →
        m2 ∈ mrunRepB body k mx (lastO pv m1.out) m1.rest →
        cp ∈ m1.caps ++ m2.caps → cp <:+: s := by
      intro k m1 m2 h1 h2 hcp'
      rcases List.mem_append.1 hcp' with hc | hc
      · exact hbC _ _ _ h1 cp hc
      · exact (ih k _ _ _ h2 cp hc).trans
          (List.IsSuffix.isInfix ⟨m1.out, hbO _ _ _ h1⟩)
    match n with
    | 0 =>
      simp only [mrunRepB, List.mem_append, List.mem_flatMap,
        List.mem_singleton] at hm
      rcases hm with ⟨m1, h1, hch⟩ | rfl
      · obtain ⟨m2, h2, rfl⟩ := mchain_mem hch
        exact step 0 m1 m2 h1 h2 hcp
      · simp at hcp
    | n + 1 =>
      simp only [mrunRepB, List.mem_flatMap] at hm
      obtain ⟨m1, h1, hch⟩ := hm
      obtain ⟨m2, h2, rfl⟩ := mchain_mem hch
      exact step n m1 m2 h1 h2 hcp

/-- Captures of `mrunRep` alternatives are contiguous infixes of the
input. -/
theorem mrunRep_caps_infix {body : Option Char → List Char → List MRes}
    (hbO : ∀ pv s m, m ∈ body pv s → m.out ++ m.rest = s)
    (hbC : ∀ pv s m, m ∈ body pv s → ∀ cp ∈ m.caps, cp <:+: s) :
    ∀ (f n : Nat) (pv : Option Char) (s : List Char) (m : MRes),
      m ∈ mrunRep body f n pv s → ∀ cp ∈ m.caps, cp <:+: s := by
  intro f
  induction f with
  | zero =>
    intro n pv s m hm cp hcp
    match n with
    | 0 =>
      simp only [mrunRep, List.mem_singleton] at hm
      subst hm; simp at hcp
    | n + 1 => simp [mrunRep] at hm
  | succ f ih =>
    intro n pv s m hm cp hcp
    have step : ∀ (k : Nat) (m1 m2 : MRes), m1 ∈ body pv s →
        m2 ∈ mrunRep body f k (lastO pv m1.out) m1.rest →
        cp ∈ m1.caps ++ m2.caps → cp <:+: s := by
      intro k m1 m2 h1 h2 hcp'
      rcases List.mem_append.1 hcp' with hc | hc
      · exact hbC _ _ _ h1 cp hc
      · exact (ih k _ _ _ h2 cp hc).trans
          (List.IsSuffix.isInfix ⟨m1.out, hbO _ _ _ h1⟩)
    match n with
    | 0 =>
      simp only [mrunRep, List.mem_append, List.mem_flatMap,
        List.mem_filter, List.mem_singleton] at hm
      rcases hm with ⟨m1, ⟨h1, _⟩, hch⟩ | rfl
      · obtain ⟨m2, h2, rfl⟩ := mchain_mem hch
        exact step 0 m1 m2 h1 h2 hcp
      · simp at hcp
    | n + 1 =>
      simp only [mrunRep, List.mem_flatMap] at hm
      obtain ⟨m1, h1, hch⟩ := hm
      obtain ⟨m2, h2, rfl⟩ := mchain_mem hch
      exact step n m1 m2 h1 h2 hcp

/-- Captures of `mrun` alternatives are contiguous infixes of the input. -/
theorem mrun_caps_infix :
    ∀ (rx : Rx) (f : Nat) (pv : Option Char) (s : List Char) (m : MRes),
      m ∈ mrun rx f pv s → ∀ cp ∈ m.caps, cp <:+: s := by
  intro rx
  induction rx with
  | eps =>
    intro f pv s m hm cp hcp
    simp only [mrun, List.mem_singleton] at hm
    subst hm; simp at hcp
  | cls p =>
    intro f pv s m hm cp hcp
    match s with
    | [] => simp [mrun] at hm
    | c :: r =>
      simp only [mrun] at hm
      split at hm
      · simp only [List.mem_singleton] at hm
        subst hm; simp at hcp
      · simp at hm
  | seq a b iha ihb =>
    intro f pv s m hm cp hcp
    simp only [mrun, List.mem_flatMap] at hm
    obtain ⟨m1, h1, hch⟩ := hm
    obtain ⟨m2, h2, rfl⟩ := mchain_mem hch
    rcases List.mem_append.1 hcp with hc | hc
    · exact iha _ _ _ _ h1 cp hc
    · exact (ihb _ _ _ _ h2 cp hc).trans
        (List.IsSuffix.isInfix ⟨m1.out, mrun_out_append a f pv s m1 h1⟩)
  | alt a b iha ihb =>
    intro f pv s m hm cp hcp
    simp only [mrun, List.mem_append] at hm
    rcases hm with h | h
    · exact iha _ _ _ _ h cp hcp
    · exact ihb _ _ _ _ h cp hcp
  | opt a iha =>
    intro f pv s m hm cp hcp
    simp only [mrun, List.mem_append, List.mem_singleton] at hm
    rcases hm with h | rfl
    · exact iha _ _ _ _ h cp hcp
    · simp at hcp
  | repB a n mx iha =>
    intro f pv s m hm cp hcp
    exact mrunRepB_caps_infix (fun pv s m h => mrun_out_append a f pv s m h)
      (fun pv s m h => iha f pv s m h) mx n pv s m hm cp hcp
  | rep a n iha =>
    intro f pv s m hm cp hcp
    exact mrunRep_caps_infix (fun pv s m h => mrun_out_append a f pv s m h)
      (fun pv s m h => iha f pv s m h) f n pv s m hm cp hcp
  | wb =>
    intro f pv s m hm cp hcp
    simp only [mrun] at hm
    split at hm
    · simp only [List.mem_singleton] at hm
      subst hm; simp at hcp
    · simp at hm
  | grp a iha =>
    intro f pv s m hm cp hcp
    simp only [mrun, List.mem_map] at hm
    obtain ⟨m0, h0, rfl⟩ := hm
    rcases List.mem_append.1 hcp with hc | hc
    · exact iha _ _ _ _ h0 cp hc
    · simp only [List.mem_singleton] at hc
      subst hc
      exact List.IsPrefix.isInfix ⟨m0.rest, mrun_out_append a f pv s m0 h0⟩

/-! ### Scan lemmas -/

/-- The head of a list is a member. -/
theorem head?_memL {α : Type} {l : List α} {a : α} (h : l.head? = some a) :
    a ∈ l := by
  cases l with
  | nil => simp at h
  | cons x xs =>
    simp only [List.head?_cons, Option.some.injEq] at h
    subst h
    exact List.mem_cons_self x xs

/-- Defining equation of `rxFirstAux` on the empty input. -/
theorem rxFirstAux_nil (rx : Rx) (pv : Option Char) :
    rxFirstAux rx pv [] =
      (match (mrun rx 1 pv []).head? with
       | some m => if m.out.isEmpty then none else some m.out
       | none => none) := rfl

/-- Defining equation of `rxFirstAux` on a non-empty input. -/
theorem rxFirstAux_cons (rx : Rx) (pv : Option Char) (c : Char)
    (r : List Char) :
    rxFirstAux rx pv (c :: r) =
      (match (mrun rx ((c :: r).length + 1) pv (c :: r)).head? with
       | some m =>
         if m.out.isEmpty then rxFirstAux rx (some c) r else some m.out
       | none => rxFirstAux rx (some c) r) := rfl

/-- Defining equation of `amAux` at an unblocked position. -/
theorem amAux_step (rx : Rx) (pv : Option Char) (c : Char) (r : List Char)
    (i : Nat) :
    amAux rx pv (c :: r) i 0 =
      (match (mrun rx ((c :: r).length + 1) pv (c :: r)).head? with
       | some m =>
         if m.out.isEmpty then amAux rx (some c) r (i + 1) 0
         else (i, m.out) :: amAux rx (some c) r (i + 1) (m.out.length - 1)
       | none => amAux rx (some c) r (i + 1) 0) := rfl

/-- `rxFirstAux` only consults the ambient context through `isWordO`. -/
theorem rxFirstAux_pv_congr (rx : Rx) :
    ∀ (s : List Char) (pv pv' : Option Char), isWordO pv = isWordO pv' →
      rxFirstAux rx pv s = rxFirstAux rx pv' s := by
  intro s
  cases s with
  | nil =>
    intro pv pv' h
    rw [rxFirstAux_nil, rxFirstAux_nil, mrun_pv_congr rx _ pv pv' _ h]
  | cons c r =>
    intro pv pv' h
    rw [rxFirstAux_cons, rxFirstAux_cons, mrun_pv_congr rx _ pv pv' _ h]

/-- Prepending whitespace does not change the first match of a pattern that
is everywhere-dead on whitespace-headed inputs in non-word context. -/
theorem rxFirstAux_ws_prepend (rx : Rx)
    (hdead : ∀ (f : Nat) (pv : Option Char) (s : List Char),
      isWordO pv = false →
      (s = [] ∨ ∃ c r', s = c :: r' ∧ isJsWs c = true) →
      mrun rx f pv s = []) :
    ∀ (w : List Char), (∀ c ∈ w, isJsWs c = true) →
    ∀ (pv : Option Char) (s : List Char), isWordO pv = false →
      rxFirstAux rx pv (w ++ s) = rxFirstAux rx none s := by
  intro w
  induction w with
  | nil =>
    intro _ pv s hpv
    rw [List.nil_append]
    exact rxFirstAux_pv_congr rx s pv none (by rw [hpv]; rfl)
  | cons c w' ih =>
    intro hw pv s hpv
    have hc : isJsWs c = true := hw c (List.mem_cons_self c w')
    rw [List.cons_append, rxFirstAux_cons,
      hdead _ pv _ hpv (Or.inr ⟨c, w' ++ s, rfl, hc⟩)]
    show rxFirstAux rx (some c) (w' ++ s) = rxFirstAux rx none s
    exact ih (fun d hd => hw d (List.mem_cons_of_mem c hd)) (some c) s
      (by show isWordChar c = false; exact ws_not_word hc)

/-- `amAux` only consults the ambient context through `isWordO`. -/
theorem amAux_pv_congr (rx : Rx) :
    ∀ (s : List Char) (pv pv' : Option Char) (i b : Nat),
      isWordO pv = isWordO pv' → amAux rx pv s i b = amAux rx pv' s i b := by
  intro s
  cases s with
  | nil => intro pv pv' i b _; rfl
  | cons c r =>
    intro pv pv' i b h
    cases b with
    | succ b' => rfl
    | zero =>
      rw [amAux_step, amAux_step, mrun_pv_congr rx _ pv pv' _ h]

/-- Shifting the running index of `amAux` shifts every reported index. -/
theorem amAux_shift (rx : Rx) :
    ∀ (s : List Char) (pv : Option Char) (i k b : Nat),
      amAux rx pv s (i + k) b =
        (amAux rx pv s i b).map fun p => (p.1 + k, p.2) := by
  intro s
  induction s with
  | nil => intro pv i k b; rfl
  | cons c r ih =>
    intro pv i k b
    cases b with
    | succ b' =>
      show amAux rx (some c) r (i + k + 1) b' =
        (amAux rx (some c) r (i + 1) b').map fun p => (p.1 + k, p.2)
      rw [show i + k + 1 = (i + 1) + k by omega]
      exact ih (some c) (i + 1) k b'
    | zero =>
      rw [amAux_step, amAux_step]
      cases hh : (mrun rx ((c :: r).length + 1) pv (c :: r)).head? with
      | none =>
        show amAux rx (some c) r (i + k + 1) 0 =
          (amAux rx (some c) r (i + 1) 0).map fun p => (p.1 + k, p.2)
        rw [show i + k + 1 = (i + 1) + k by omega]
        exact ih (some c) (i + 1) k 0
      | some m =>
        by_cases he : m.out.isEmpty
        · simp only [he, if_true]
          show amAux rx (some c) r (i + k + 1) 0 =
            (amAux rx (some c) r (i + 1) 0).map fun p => (p.1 + k, p.2)
          rw [show i + k + 1 = (i + 1) + k by omega]
          exact ih (some c) (i + 1) k 0
        · simp only [he, if_false, List.map_cons]
          show (i + k, m.out) :: amAux rx (some c) r (i + k + 1)
              (m.out.length - 1) =
            (i + k, m.out) :: (amAux rx (some c) r (i + 1)
              (m.out.length - 1)).map fun p => (p.1 + k, p.2)
          rw [show i + k + 1 = (i + 1) + k by omega]
          rw [ih (some c) (i + 1) k (m.out.length - 1)]

/-- Prepending whitespace shifts the `amAux` scan wholesale. -/
theorem amAux_ws_prepend (rx : Rx)
    (hdead : ∀ (f : Nat) (pv : Option Char) (s : List Char),
      isWordO pv = false →
      (s = [] ∨ ∃ c r', s = c :: r' ∧ isJsWs c = true) →
      mrun rx f pv s = []) :
    ∀ (w : List Char), (∀ c ∈ w, isJsWs c = true) →
    ∀ (pv : Option Char) (s : List Char) (i : Nat), isWordO pv = false →
      amAux rx pv (w ++ s) i 0 = amAux rx none s (i + w.length) 0 := by
  intro w
  induction w with
  | nil =>
    intro _ pv s i hpv
    rw [List.nil_append, show i + ([] : List Char).length = i by simp]
    exact amAux_pv_congr rx s pv none i 0 (by rw [hpv]; rfl)
  | cons c w' ih =>
    intro hw pv s i hpv
    have hc : isJsWs c = true := hw c (List.mem_cons_self c w')
    rw [List.cons_append, amAux_step,
      hdead _ pv _ hpv (Or.inr ⟨c, w' ++ s, rfl, hc⟩)]
    show amAux rx (some c) (w' ++ s) (i + 1) 0 =
      amAux rx none s (i + (c :: w').length) 0
    rw [ih (fun d hd => hw d (List.mem_cons_of_mem c hd)) (some c) s (i + 1)
      (by show isWordChar c = false; exact ws_not_word hc)]
    rw [show (i + 1) + w'.length = i + (c :: w').length by
      simp only [List.length_cons]; omega]

/-- `matchAll` results on whitespace-prepended text are exactly the results
on the text, indices shifted by the padding length, for a `\b`-guarded
pattern. -/
theorem allMatches_ws_prepend (rx : Rx)
    (hdead : ∀ (f : Nat) (pv : Option Char) (s : List Char),
      isWordO pv = false →
      (s = [] ∨ ∃ c r', s = c :: r' ∧ isJsWs c = true) →
      mrun rx f pv s = []) (w s : List Char)
    (hw : ∀ c ∈ w, isJsWs c = true) :
    allMatches rx (w ++ s) =
      (allMatches rx s).map fun p => (p.1 + w.length, p.2) := by
  unfold allMatches
  rw [amAux_ws_prepend rx hdead w hw none s 0 rfl]
  exact amAux_shift rx s none 0 w.length 0

/-- The first match reported by `rxFirstAux` is an infix of the input. -/
theorem rxFirstAux_infix (rx : Rx) :
    ∀ (s : List Char) (pv : Option Char) (o : List Char),
      rxFirstAux rx pv s = some o → o <:+: s := by
  intro s
  induction s with
  | nil =>
    intro pv o h
    rw [rxFirstAux_nil] at h
    cases hh : (mrun rx 1 pv []).head? with
    | none => rw [hh] at h; simp at h
    | some m =>
      rw [hh] at h
      have h' : (if m.out.isEmpty then none else some m.out) = some o := h
      by_cases he : m.out.isEmpty
      · rw [if_pos he] at h'
        exact absurd h' (by simp)
      · rw [if_neg he] at h'
        have ho : m.out = o := Option.some.inj h'
        subst ho
        exact List.IsPrefix.isInfix
          ⟨m.rest, mrun_out_append rx _ pv [] m (head?_memL hh)⟩
  | cons c r ih =>
    intro pv o h
    rw [rxFirstAux_cons] at h
    cases hh : (mrun rx ((c :: r).length + 1) pv (c :: r)).head? with
    | none =>
      rw [hh] at h
      exact (ih (some c) o h).trans (List.suffix_cons c r).isInfix
    | some m =>
      rw [hh] at h
      have h' : (if m.out.isEmpty then rxFirstAux rx (some c) r
          else some m.out) = some o := h
      by_cases he : m.out.isEmpty
      · rw [if_pos he] at h'
        exact (ih (some c) o h').trans (List.suffix_cons c r).isInfix
      · rw [if_neg he] at h'
        have ho : m.out = o := Option.some.inj h'
        subst ho
        exact List.IsPrefix.isInfix
          ⟨m.rest, mrun_out_append rx _ pv (c :: r) m (head?_memL hh)⟩

/-- Every match reported by `amAux` is an infix of the input. -/
theorem amAux_out_infix (rx : Rx) :
    ∀ (s : List Char) (pv : Option Char) (i b j : Nat) (o : List Char),
      (j, o) ∈ amAux rx pv s i b → o <:+: s := by
  intro s
  induction s with
  | nil => intro pv i b j o h; simp [amAux] at h
  | cons c r ih =>
    intro pv i b j o h
    cases b with
    | succ b' =>
      exact (ih (some c) (i + 1) b' j o h).trans
        (List.suffix_cons c r).isInfix
    | zero =>
      rw [amAux_step] at h
      cases hh : (mrun rx ((c :: r).length + 1) pv (c :: r)).head? with
      | none =>
        rw [hh] at h
        exact (ih (some c) (i + 1) 0 j o h).trans
          (List.suffix_cons c r).isInfix
      | some m =>
        rw [hh] at h
        have h' : (j, o) ∈ (if m.out.isEmpty then
            amAux rx (some c) r (i + 1) 0
          else (i, m.out) :: amAux rx (some c) r (i + 1)
            (m.out.length - 1)) := h
        by_cases he : m.out.isEmpty
        · rw [if_pos he] at h'
          exact (ih (some c) (i + 1) 0 j o h').trans
            (List.suffix_cons c r).isInfix
        · rw [if_neg he] at h'
          rcases List.mem_cons.1 h' with he2 | htail
          · have ho : o = m.out := congrArg Prod.snd he2
            subst ho
            exact List.IsPrefix.isInfix
              ⟨m.rest, mrun_out_append rx _ pv (c :: r) m (head?_memL hh)⟩
          · exact (ih (some c) (i + 1) (m.out.length - 1) j o htail).trans
              (List.suffix_cons c r).isInfix

/-- Every pattern of the source starts with `\b`; such patterns are dead on
whitespace-headed input in non-word context. -/
theorem wbPat_dead (l : List Rx) :
    ∀ (f : Nat) (pv : Option Char) (s : List Char), isWordO pv = false →
      (s = [] ∨ ∃ c r', s = c :: r' ∧ isJsWs c = true) →
      mrun (rxCat (.wb :: l)) f pv s = [] := by
  intro f pv s hpv hs
  exact mrun_wb_head_dead hpv hs

/-- `firstRegexMatch` ignores whitespace-only padding in front of the text,
for a `\b`-guarded pattern. -/
theorem firstRegexMatch_ws_prepend (l : List Rx) (w s : List Char)
    (hw : ∀ c ∈ w, isJsWs c = true) :
    firstRegexMatch (w ++ s) (rxCat (.wb :: l)) =
      firstRegexMatch s (rxCat (.wb :: l)) := by
  unfold firstRegexMatch
  exact rxFirstAux_ws_prepend _ (wbPat_dead l) w hw none s rfl

/-- `firstRegexMatch` results are infixes of the text. -/
theorem firstRegexMatch_infix {t : List Char} {rx : Rx} {o : List Char}
    (h : firstRegexMatch t rx = some o) : o <:+: t :=
  rxFirstAux_infix rx t none o h

/-- `allMatches` results are infixes of the text. -/
theorem allMatches_infix {rx : Rx} {t : List Char} {j : Nat}
    {o : List Char} (h : (j, o) ∈ allMatches rx t) : o <:+: t :=
  amAux_out_infix rx t none 0 0 j o h

/-! ### Split, trim and CRLF lemmas -/

/-- `splitP` always returns at least one piece. -/
theorem splitP_ne_nil (sep : Char → Bool) :
    ∀ (l : List Char), splitP sep l ≠ [] := by
  intro l
  cases l with
  | nil => simp [splitP]
  | cons c r =>
    by_cases hc : sep c
    · simp [splitP, hc]
    · simp only [splitP, hc, if_false, Bool.false_eq_true]
      cases hsp : splitP sep r with
      | nil => simp
      | cons l0 ls => simp

/-- The first piece of `splitP` is a prefix of the input. -/
theorem splitP_head_prefix (sep : Char → Bool) :
    ∀ (l l0 : List Char) (ls : List (List Char)),
      splitP sep l = l0 :: ls → l0 <+: l := by
  intro l
  induction l with
  | nil =>
    intro l0 ls h
    simp only [splitP, List.cons.injEq] at h
    obtain ⟨h1, _⟩ := h
    subst h1
    exact List.nil_prefix
  | cons c r ih =>
    intro l0 ls h
    by_cases hc : sep c
    · simp only [splitP, hc, if_true, List.cons.injEq] at h
      obtain ⟨h1, _⟩ := h
      subst h1
      exact List.nil_prefix
    · simp only [splitP, hc, if_false, Bool.false_eq_true] at h
      cases hsp : splitP sep r with
      | nil => exact absurd hsp (splitP_ne_nil sep r)
      | cons h0 hs =>
        rw [hsp] at h
        have h' : (c :: h0) :: hs = l0 :: ls := h
        have he := (List.cons.inj h').1
        subst he
        exact List.cons_prefix_cons.mpr ⟨rfl, ih h0 hs hsp⟩

/-- Every piece of `splitP` is an infix of the input. -/
theorem splitP_mem_infix (sep : Char → Bool) :
    ∀ (t l : List Char), l ∈ splitP sep t → l <:+: t := by
  intro t
  induction t with
  | nil =>
    intro l h
    simp only [splitP, List.mem_singleton] at h
    subst h
    exact List.nil_infix
  | cons c r ih =>
    intro l h
    by_cases hc : sep c
    · simp only [splitP, hc, if_true, List.mem_cons] at h
      rcases h with rfl | h
      · exact List.nil_infix
      · exact (ih l h).trans (List.suffix_cons c r).isInfix
    · simp only [splitP, hc, if_false, Bool.false_eq_true] at h
      cases hsp : splitP sep r with
      | nil => exact absurd hsp (splitP_ne_nil sep r)
      | cons h0 hs =>
        rw [hsp] at h
        have h' : l ∈ (c :: h0) :: hs := h
        rcases List.mem_cons.1 h' with rfl | htail
        · exact List.IsPrefix.isInfix
            (List.cons_prefix_cons.mpr ⟨rfl, splitP_head_prefix sep r h0 hs hsp⟩)
        · exact (ih l (by rw [hsp]; exact List.mem_cons_of_mem h0 htail)).trans
            (List.suffix_cons c r).isInfix

/-- `trimL` drops a leading whitespace character. -/
theorem trimL_cons_ws {c : Char} (hc : isJsWs c = true) (l : List Char) :
    trimL (c :: l) = trimL l := by
  unfold trimL
  rw [List.dropWhile_cons_of_pos hc]

/-- `trimL` yields an infix. -/
theorem trimL_infix (l : List Char) : trimL l <:+: l := by
  unfold trimL
  have h1 : l.dropWhile isJsWs <:+ l := List.dropWhile_suffix isJsWs
  have h2 : (l.dropWhile isJsWs).reverse.dropWhile isJsWs <:+
      (l.dropWhile isJsWs).reverse := List.dropWhile_suffix isJsWs
  have h3 : ((l.dropWhile isJsWs).reverse.dropWhile isJsWs).reverse <+:
      l.dropWhile isJsWs := by
    have := List.reverse_prefix.mpr h2
    simpa using this
  exact h3.isInfix.trans h1.isInfix

/-- `replaceCRLF` on a cons that is not the start of a CR-LF pair. -/
theorem replaceCRLF_cons (c : Char) (x : List Char)
    (h : c ≠ '\r' ∨ x.head? ≠ some '\n') :
    replaceCRLF (c :: x) = c :: replaceCRLF x := by
  cases x with
  | nil => rfl
  | cons d r =>
    have hcd : (c = '\r' && d = '\n') = false := by
      rcases h with h | h
      · simp [h]
      · simp only [List.head?_cons, ne_eq, Option.some.injEq] at h
        simp [h]
    simp only [replaceCRLF, hcd, Bool.false_eq_true, if_false]

/-- `replaceCRLF` collapses a CR-LF pair. -/
theorem replaceCRLF_crlf (r : List Char) :
    replaceCRLF ('\r' :: '\n' :: r) = '\n' :: replaceCRLF r := by
  simp [replaceCRLF]

/-- `replaceCRLF` of whitespace-prepended text is whitespace-prepended
`replaceCRLF` of the text. -/
theorem replaceCRLF_ws_append :
    ∀ (w : List Char), (∀ c ∈ w, isJsWs c = true) → ∀ (s : List Char),
      ∃ w', (∀ c ∈ w', isJsWs c = true) ∧
        replaceCRLF (w ++ s) = w' ++ replaceCRLF s
  | [] => by
    intro _ s
    exact ⟨[], by simp, by simp⟩
  | c :: w2 => by
    intro hw s
    by_cases hsplit : c = '\r' ∧ (w2 ++ s).head? = some '\n'
    · obtain ⟨rfl, hh⟩ := hsplit
      cases w2 with
      | nil =>
        cases s with
        | nil => simp at hh
        | cons d s' =>
          have hd : d = '\n' := by simpa using hh
          subst hd
          refine ⟨[], by simp, ?_⟩
          show replaceCRLF ('\r' :: '\n' :: s') = [] ++ replaceCRLF ('\n' :: s')
          rw [replaceCRLF_crlf, replaceCRLF_cons '\n' s' (Or.inl (by decide))]
          simp
      | cons d w3 =>
        have hd : d = '\n' := by simpa using hh
        subst hd
        obtain ⟨w2', hws2, he2⟩ := replaceCRLF_ws_append ('\n' :: w3)
          (fun x hx => hw x (List.mem_cons_of_mem _ hx)) s
        refine ⟨w2', hws2, ?_⟩
        show replaceCRLF ('\r' :: '\n' :: (w3 ++ s)) = w2' ++ replaceCRLF s
        rw [replaceCRLF_crlf]
        have he2' : '\n' :: replaceCRLF (w3 ++ s) = w2' ++ replaceCRLF s := by
          rw [← replaceCRLF_cons '\n' (w3 ++ s) (Or.inl (by decide))]
          exact he2
        exact he2'
    · rw [not_and_or] at hsplit
      obtain ⟨w2', hws2, he2⟩ := replaceCRLF_ws_append w2
        (fun x hx => hw x (List.mem_cons_of_mem _ hx)) s
      refine ⟨c :: w2', ?_, ?_⟩
      · intro d hd
        rcases List.mem_cons.1 hd with rfl | hd
        · exact hw d (List.mem_cons_self d w2)
        · exact hws2 d hd
      · show replaceCRLF (c :: (w2 ++ s)) = (c :: w2') ++ replaceCRLF s
        rw [replaceCRLF_cons c (w2 ++ s) hsplit, he2]
        rfl

/-- First piece of `splitP` after `replaceCRLF` is a prefix of the original
text (the CR characters removed by `replaceCRLF` immediately precede LF
separators). -/
theorem splitP_replaceCRLF_head_prefix (sep : Char → Bool)
    (hnl : sep '\n' = true) :
    ∀ (u l0 : List Char) (ls : List (List Char)),
      splitP sep (replaceCRLF u) = l0 :: ls → l0 <+: u
  | [] => by
    intro l0 ls h
    simp only [replaceCRLF, splitP, List.cons.injEq] at h
    obtain ⟨h1, _⟩ := h
    subst h1
    exact List.nil_prefix
  | [c] => by
    intro l0 ls h
    have h' : splitP sep [c] = l0 :: ls := h
    by_cases hc : sep c
    · simp only [splitP, hc, if_true, List.cons.injEq] at h'
      obtain ⟨h1, _⟩ := h'
      subst h1
      exact List.nil_prefix
    · simp only [splitP, hc, if_false, Bool.false_eq_true,
        List.cons.injEq] at h'
      obtain ⟨h1, _⟩ := h'
      subst h1
      exact List.prefix_refl [c]
  | c :: d :: r => by
    intro l0 ls h
    by_cases hcd : c = '\r' ∧ d = '\n'
    · obtain ⟨rfl, rfl⟩ := hcd
      rw [replaceCRLF_crlf] at h
      by_cases hn : sep '\n'
      · simp only [splitP, hn, if_true, List.cons.injEq] at h
        obtain ⟨h1, _⟩ := h
        subst h1
        exact List.nil_prefix
      · exact absurd hnl hn
    · have hne : replaceCRLF (c :: d :: r) = c :: replaceCRLF (d :: r) := by
        apply replaceCRLF_cons
        by_cases hc : c = '\r'
        · subst hc
          right
          simp only [List.head?_cons, ne_eq, Option.some.injEq]
          intro hd
          exact hcd ⟨rfl, hd⟩
        · exact Or.inl hc
      rw [hne] at h
      by_cases hc : sep c
      · simp only [splitP, hc, if_true, List.cons.injEq] at h
        obtain ⟨h1, _⟩ := h
        subst h1
        exact List.nil_prefix
      · simp only [splitP, hc, if_false, Bool.false_eq_true] at h
        cases hsp : splitP sep (replaceCRLF (d :: r)) with
        | nil => exact absurd hsp (splitP_ne_nil sep _)
        | cons h0 hs =>
          rw [hsp] at h
          have h' : (c :: h0) :: hs = l0 :: ls := h
          have he := (List.cons.inj h').1
          subst he
          exact List.cons_prefix_cons.mpr
            ⟨rfl, splitP_replaceCRLF_head_prefix sep hnl (d :: r) h0 hs hsp⟩

/-- Every piece of `splitP` after `replaceCRLF` is an infix of the original
text. -/
theorem splitP_replaceCRLF_mem_infix (sep : Char → Bool)
    (hnl : sep '\n' = true) :
    ∀ (t l : List Char), l ∈ splitP sep (replaceCRLF t) → l <:+: t
  | [] => by
    intro l h
    simp only [replaceCRLF, splitP, List.mem_singleton] at h
    subst h
    exact List.nil_infix
  | [c] => by
    intro l h
    have h' : l ∈ splitP sep [c] := h
    by_cases hc : sep c
    · simp only [splitP, hc, if_true, List.mem_cons,
        List.mem_singleton] at h'
      rcases h' with rfl | rfl | h0
      · exact List.nil_infix
      · exact List.nil_infix
      · simp at h0
    · simp only [splitP, hc, if_false, Bool.false_eq_true,
        List.mem_singleton] at h'
      subst h'
      exact List.infix_refl [c]
  | c :: d :: r => by
    intro l h
    by_cases hcd : c = '\r' ∧ d = '\n'
    · obtain ⟨rfl, rfl⟩ := hcd
      rw [replaceCRLF_crlf] at h
      simp only [splitP, hnl, if_true, List.mem_cons] at h
      rcases h with rfl | h
      · exact List.nil_infix
      · exact (( splitP_replaceCRLF_mem_infix sep hnl r l h).trans
          (List.suffix_cons '\n' r).isInfix).trans
          (List.suffix_cons '\r' ('\n' :: r)).isInfix
    · have hne : replaceCRLF (c :: d :: r) = c :: replaceCRLF (d :: r) := by
        apply replaceCRLF_cons
        by_cases hc : c = '\r'
        · subst hc
          right
          simp only [List.head?_cons, ne_eq, Option.some.injEq]
          intro hd
          exact hcd ⟨rfl, hd⟩
        · exact Or.inl hc
      rw [hne] at h
      by_cases hc : sep c
      · simp only [splitP, hc, if_true, List.mem_cons] at h
        rcases h with rfl | h
        · exact List.nil_infix
        · exact ( splitP_replaceCRLF_mem_infix sep hnl (d :: r) l h).trans
            (List.suffix_cons c (d :: r)).isInfix
      · simp only [splitP, hc, if_false, Bool.false_eq_true] at h
        cases hsp : splitP sep (replaceCRLF (d :: r)) with
        | nil => exact absurd hsp (splitP_ne_nil sep _)
        | cons h0 hs =>
          rw [hsp] at h
          have h' : l ∈ (c :: h0) :: hs := h
          rcases List.mem_cons.1 h' with rfl | htail
          · exact List.IsPrefix.isInfix (List.cons_prefix_cons.mpr
              ⟨rfl, splitP_replaceCRLF_head_prefix sep hnl (d :: r) h0 hs hsp⟩)
          · exact ( splitP_replaceCRLF_mem_infix sep hnl (d :: r) l
              (by rw [hsp]; exact List.mem_cons_of_mem h0 htail)).trans
              (List.suffix_cons c (d :: r)).isInfix

/-! ### Per-detector invariance under whitespace-only padding -/

/-- `findSome?` only depends on the values of the function on the list. -/
theorem findSome?_congrF {α β : Type} (f g : α → Option β) :
    ∀ (l : List α), (∀ a ∈ l, f a = g a) →
      l.findSome? f = l.findSome? g := by
  intro l
  induction l with
  | nil => intro _; rfl
  | cons a l ih =>
    intro h
    rw [List.findSome?_cons, List.findSome?_cons,
      h a (List.mem_cons_self a l), ih fun x hx => h x (List.mem_cons_of_mem a hx)]

/-- Dropping a whole left part plus `k` equals dropping `k` from the right
part. -/
theorem drop_append_len :
    ∀ (w s : List Char) (k : Nat), (w ++ s).drop (w.length + k) = s.drop k := by
  intro w
  induction w with
  | nil => intro s k; simp
  | cons c w ih =>
    intro s k
    rw [List.cons_append,
      show (c :: w).length + k = (w.length + k) + 1 by simp; omega,
      List.drop_succ_cons]
    exact ih s k

/-- A pattern of the form `\b…` matches the same first substring whether or
not whitespace padding is prepended. -/
theorem firstRegexMatch_wb_ws {rx : Rx} (l : List Rx)
    (he : rx = rxCat (.wb :: l)) (w s : List Char)
    (hw : ∀ c ∈ w, isJsWs c = true) :
    firstRegexMatch (w ++ s) rx = firstRegexMatch s rx := by
  subst he
  exact firstRegexMatch_ws_prepend l w s hw

/-- A pattern of the form `\b…` has the same `matchAll` results on padded
text, indices shifted. -/
theorem allMatches_wb_ws {rx : Rx} (l : List Rx) (he : rx = rxCat (.wb :: l))
    (w s : List Char) (hw : ∀ c ∈ w, isJsWs c = true) :
    allMatches rx (w ++ s) =
      (allMatches rx s).map fun p => (p.1 + w.length, p.2) := by
  subst he
  exact allMatches_ws_prepend _ (wbPat_dead l) w s hw

/-- `detectSwedishPersonalNumber` ignores whitespace-only padding. -/
theorem detectSwedishPersonalNumber_ws (w s : List Char)
    (hw : ∀ c ∈ w, isJsWs c = true) :
    detectSwedishPersonalNumber (w ++ s) = detectSwedishPersonalNumber s :=
  firstRegexMatch_wb_ws _ rfl w s hw

/-- `detectDate` ignores whitespace-only padding. -/
theorem detectDate_ws (w s : List Char)
    (hw : ∀ c ∈ w, isJsWs c = true) :
    detectDate (w ++ s) = detectDate s := by
  unfold detectDate
  rw [@firstRegexMatch_wb_ws isoLikeRx _ rfl w s hw,
    @firstRegexMatch_wb_ws dmyRx _ rfl w s hw,
    @firstRegexMatch_wb_ws mdyRx _ rfl w s hw,
    @firstRegexMatch_wb_ws monthRx _ rfl w s hw]

/-- `detectTemporalReference` ignores whitespace-only padding. -/
theorem detectTemporalReference_ws (w s : List Char)
    (hw : ∀ c ∈ w, isJsWs c = true) :
    detectTemporalReference (w ++ s) = detectTemporalReference s := by
  unfold detectTemporalReference
  apply findSome?_congrF
  intro rx hrx
  simp only [temporalPatterns, List.mem_cons, List.not_mem_nil, or_false] at hrx
  rcases hrx with rfl | rfl | rfl | rfl | rfl | rfl | rfl | rfl | rfl | rfl |
    rfl | rfl | rfl | rfl | rfl | rfl | rfl | rfl | rfl
  all_goals exact firstRegexMatch_wb_ws _ rfl w s hw

/-- `detectFullNames` ignores whitespace-only padding. -/
theorem detectFullNames_ws (w s : List Char)
    (hw : ∀ c ∈ w, isJsWs c = true) :
    detectFullNames (w ++ s) = detectFullNames s :=
  firstRegexMatch_wb_ws _ rfl w s hw

/-- `detectInitialLastName` ignores whitespace-only padding. -/
theorem detectInitialLastName_ws (w s : List Char)
    (hw : ∀ c ∈ w, isJsWs c = true) :
    detectInitialLastName (w ++ s) = detectInitialLastName s :=
  firstRegexMatch_wb_ws _ rfl w s hw

/-- `detectEmail` ignores whitespace-only padding. -/
theorem detectEmail_ws (w s : List Char)
    (hw : ∀ c ∈ w, isJsWs c = true) :
    detectEmail (w ++ s) = detectEmail s :=
  firstRegexMatch_wb_ws _ rfl w s hw

/-- `detectPatientIdOrJournalNumber` ignores whitespace-only padding. -/
theorem detectPatientIdOrJournalNumber_ws (w s : List Char)
    (hw : ∀ c ∈ w, isJsWs c = true) :
    detectPatientIdOrJournalNumber (w ++ s) =
      detectPatientIdOrJournalNumber s :=
  firstRegexMatch_wb_ws _ rfl w s hw

/-- `detectAddress` ignores whitespace-only padding. -/
theorem detectAddress_ws (w s : List Char)
    (hw : ∀ c ∈ w, isJsWs c = true) :
    detectAddress (w ++ s) = detectAddress s := by
  unfold detectAddress
  rw [@firstRegexMatch_wb_ws streetSuffixRx _ rfl w s hw,
    @firstRegexMatch_wb_ws streetWordRx _ rfl w s hw,
    @firstRegexMatch_wb_ws boxRx _ rfl w s hw]

/-- `detectWardBedTimestampCombo` ignores whitespace-only padding. -/
theorem detectWardBedTimestampCombo_ws (w s : List Char)
    (hw : ∀ c ∈ w, isJsWs c = true) :
    detectWardBedTimestampCombo (w ++ s) = detectWardBedTimestampCombo s :=
  firstRegexMatch_wb_ws _ rfl w s hw

/-- `detectNameLabels` ignores whitespace-only padding. -/
theorem detectNameLabels_ws (w s : List Char)
    (hw : ∀ c ∈ w, isJsWs c = true) :
    detectNameLabels (w ++ s) = detectNameLabels s := by
  unfold detectNameLabels
  rw [@allMatches_wb_ws labelLeadRx _ rfl w s hw, List.findSome?_map]
  apply findSome?_congrF
  intro pm _
  show nameLabelAt (((w ++ s).drop
      ((pm.1 + w.length) + pm.2.length)).dropWhile isJsWs) =
    nameLabelAt ((s.drop (pm.1 + pm.2.length)).dropWhile isJsWs)
  rw [show (pm.1 + w.length) + pm.2.length =
    w.length + (pm.1 + pm.2.length) by omega, drop_append_len]

/-- `lineCheckTag` ignores a leading whitespace character. -/
theorem lineCheckTag_cons_ws {c : Char} (hc : isJsWs c = true)
    (l : List Char) : lineCheckTag (c :: l) = lineCheckTag l := by
  unfold lineCheckTag
  rw [List.dropWhile_cons_of_pos hc]

/-- The tag-line scan ignores whitespace-only padding before the text. -/
theorem tagScan_ws :
    ∀ (w : List Char), (∀ c ∈ w, isJsWs c = true) → ∀ (t : List Char),
      (splitP sepNl (w ++ t)).findSome? lineCheckTag =
      (splitP sepNl t).findSome? lineCheckTag := by
  intro w
  induction w with
  | nil => intro _ t; rfl
  | cons c w2 ih =>
    intro hw t
    have hc : isJsWs c = true := hw c (List.mem_cons_self c w2)
    have hw2 : ∀ d ∈ w2, isJsWs d = true :=
      fun d hd => hw d (List.mem_cons_of_mem c hd)
    rw [List.cons_append]
    by_cases hcn : c = '\n'
    · subst hcn
      rw [show splitP sepNl ('\n' :: (w2 ++ t)) =
        [] :: splitP sepNl (w2 ++ t) by simp [splitP, sepNl]]
      rw [List.findSome?_cons]
      show (match lineCheckTag [] with
        | some b => some b
        | none => (splitP sepNl (w2 ++ t)).findSome? lineCheckTag) = _
      rw [show lineCheckTag [] = none from rfl]
      exact ih hw2 t
    · cases hsp : splitP sepNl (w2 ++ t) with
      | nil => exact absurd hsp (splitP_ne_nil _ _)
      | cons l0 ls =>
        have hstep : splitP sepNl (c :: (w2 ++ t)) = (c :: l0) :: ls := by
          simp only [splitP, sepNl, hsp]
          rw [if_neg (by simpa using hcn)]
        rw [hstep, List.findSome?_cons, lineCheckTag_cons_ws hc l0]
        have ihv := ih hw2 t
        rw [hsp, List.findSome?_cons] at ihv
        exact ihv

/-- `detectNameTagLines` ignores whitespace-only padding. -/
theorem detectNameTagLines_ws (w s : List Char)
    (hw : ∀ c ∈ w, isJsWs c = true) :
    detectNameTagLines (w ++ s) = detectNameTagLines s := by
  unfold detectNameTagLines
  obtain ⟨w', hws', he⟩ := replaceCRLF_ws_append w hw s
  rw [he]
  exact tagScan_ws w' hws' (replaceCRLF s)

/-- The chunk list of `detectNameInProse` ignores whitespace-only padding
before the text. -/
theorem chunks_ws :
    ∀ (w : List Char), (∀ c ∈ w, isJsWs c = true) → ∀ (t : List Char),
      ((splitP sepProse (w ++ t)).map trimL).filter (· ≠ []) =
      ((splitP sepProse t).map trimL).filter (· ≠ []) := by
  intro w
  induction w with
  | nil => intro _ t; rfl
  | cons c w2 ih =>
    intro hw t
    have hc : isJsWs c = true := hw c (List.mem_cons_self c w2)
    have hw2 : ∀ d ∈ w2, isJsWs d = true :=
      fun d hd => hw d (List.mem_cons_of_mem c hd)
    rw [List.cons_append]
    by_cases hcn : c = '\n'
    · subst hcn
      rw [show splitP sepProse ('\n' :: (w2 ++ t)) =
        [] :: splitP sepProse (w2 ++ t) by simp [splitP, sepProse]]
      rw [List.map_cons, show trimL [] = [] from rfl]
      rw [List.filter_cons_of_neg (by simp)]
      exact ih hw2 t
    · have hdot : ¬ c = '.' := fun he => by
        subst he; exact absurd hc (by decide)
      have hbang : ¬ c = '!' := fun he => by
        subst he; exact absurd hc (by decide)
      have hq : ¬ c = '?' := fun he => by
        subst he; exact absurd hc (by decide)
      have hsep : sepProse c = false := by
        simp [sepProse, hdot, hbang, hq, hcn]
      cases hsp : splitP sepProse (w2 ++ t) with
      | nil => exact absurd hsp (splitP_ne_nil _ _)
      | cons l0 ls =>
        have hstep : splitP sepProse (c :: (w2 ++ t)) = (c :: l0) :: ls := by
          simp only [splitP, hsp]
          rw [if_neg (by simp [hsep])]
        rw [hstep, List.map_cons, trimL_cons_ws hc l0]
        have ihv := ih hw2 t
        rw [hsp, List.map_cons] at ihv
        exact ihv

/-- `detectNameInProse` ignores whitespace-only padding. -/
theorem detectNameInProse_ws (w s : List Char)
    (hw : ∀ c ∈ w, isJsWs c = true) :
    detectNameInProse (w ++ s) = detectNameInProse s := by
  unfold detectNameInProse
  obtain ⟨w', hws', he⟩ := replaceCRLF_ws_append w hw s
  rw [he, chunks_ws w' hws' (replaceCRLF s)]

/-- `detectPhoneNumber` ignores whitespace-only padding. -/
theorem detectPhoneNumber_ws (w s : List Char)
    (hw : ∀ c ∈ w, isJsWs c = true) :
    detectPhoneNumber (w ++ s) = detectPhoneNumber s := by
  unfold detectPhoneNumber
  rw [@allMatches_wb_ws phoneCandidateRx _ rfl w s hw,
    List.find?_map]
  cases hf : (allMatches phoneCandidateRx s).find?
      fun m => !pnrLike m.2 with
  | none =>
    have hcomp : ((allMatches phoneCandidateRx s).find?
        ((fun m => !pnrLike m.2) ∘ fun p => (p.1 + w.length, p.2))) = none :=
      hf
    rw [hcomp]
    rfl
  | some m =>
    have hcomp : ((allMatches phoneCandidateRx s).find?
        ((fun m => !pnrLike m.2) ∘ fun p => (p.1 + w.length, p.2))) =
        some m := hf
    rw [hcomp]
    rfl

/-- Allowed spans of one acceptable pattern shift with padding. -/
theorem addAllowedOf_ws {rx : Rx} (l : List Rx) (he : rx = rxCat (.wb :: l))
    (w s : List Char) (hw : ∀ c ∈ w, isJsWs c = true) :
    addAllowedOf (w ++ s) rx = (addAllowedOf s rx).map
      fun sp => (sp.1 + w.length, sp.2 + w.length) := by
  unfold addAllowedOf
  rw [allMatches_wb_ws l he w s hw, List.map_map, List.map_map]
  apply List.map_congr_left
  intro m _
  show (m.1 + w.length, (m.1 + w.length) + m.2.length) =
    (m.1 + w.length, (m.1 + m.2.length) + w.length)
  rw [show (m.1 + w.length) + m.2.length = (m.1 + m.2.length) + w.length
    by omega]

/-- All allowed spans shift with padding. -/
theorem allowedSpansOf_ws (w s : List Char)
    (hw : ∀ c ∈ w, isJsWs c = true) :
    allowedSpansOf (w ++ s) = (allowedSpansOf s).map
      fun sp => (sp.1 + w.length, sp.2 + w.length) := by
  unfold allowedSpansOf
  rw [@addAllowedOf_ws decadeRx _ rfl w s hw,
    @addAllowedOf_ws decadeSvRx _ rfl w s hw,
    @addAllowedOf_ws rangeRx _ rfl w s hw,
    @addAllowedOf_ws rangeAgeUnitEnRx _ rfl w s hw,
    @addAllowedOf_ws rangeAgeUnitSvRx _ rfl w s hw]
  simp [List.map_append]

/-- Span containment is invariant under a common shift. -/
theorem isWithinAllowed_shift (spans : List (Nat × Nat)) (k st en : Nat) :
    isWithinAllowed (spans.map fun sp => (sp.1 + k, sp.2 + k)) (st + k)
      (en + k) = isWithinAllowed spans st en := by
  unfold isWithinAllowed
  rw [List.any_map]
  congr 1
  funext sp
  show (decide (sp.1 + k ≤ st + k) && decide (en + k ≤ sp.2 + k)) =
    (decide (sp.1 ≤ st) && decide (en ≤ sp.2))
  simp [Nat.add_le_add_iff_right]

/-- `detectPreciseAge` ignores whitespace-only padding. -/
theorem detectPreciseAge_ws (w s : List Char)
    (hw : ∀ c ∈ w, isJsWs c = true) :
    detectPreciseAge (w ++ s) = detectPreciseAge s := by
  unfold detectPreciseAge
  apply findSome?_congrF
  intro c hc
  have key : ∀ (rx : Rx) (l : List Rx), rx = rxCat (.wb :: l) →
      ∀ (cbr : Bool),
      ((allMatches rx (w ++ s)).findSome? fun m =>
        if isWithinAllowed (allowedSpansOf (w ++ s)) m.1
            (m.1 + m.2.length) then none
        else if cbr && containsRangeTok m.2 then none
        else some m.2) =
      ((allMatches rx s).findSome? fun m =>
        if isWithinAllowed (allowedSpansOf s) m.1 (m.1 + m.2.length)
          then none
        else if cbr && containsRangeTok m.2 then none
        else some m.2) := by
    intro rx l he cbr
    rw [allMatches_wb_ws l he w s hw, List.findSome?_map,
      allowedSpansOf_ws w s hw]
    apply findSome?_congrF
    intro m _
    show (if isWithinAllowed ((allowedSpansOf s).map
        fun sp => (sp.1 + w.length, sp.2 + w.length)) (m.1 + w.length)
        ((m.1 + w.length) + m.2.length) then none
      else if cbr && containsRangeTok m.2 then none else some m.2) = _
    rw [show (m.1 + w.length) + m.2.length = (m.1 + m.2.length) + w.length
      by omega, isWithinAllowed_shift]
  simp only [ageCandidates, List.mem_cons, List.not_mem_nil, or_false] at hc
  rcases hc with rfl | rfl | rfl | rfl | rfl
  · exact key enPreciseRx _ rfl false
  · exact key enAgeLabelRx _ rfl true
  · exact key svPreciseRx _ rfl false
  · exact key svAgeLabelRx _ rfl true
  · exact key ageSexRx _ rfl false

/-! ### Orchestrator lemmas -/

/-- Membership in the accumulator-based first-seen deduplication. -/
theorem uniqAux_mem {α : Type} [DecidableEq α] :
    ∀ (l : List α) (seen : List α) (a : α),
      a ∈ uniqAux seen l ↔ a ∈ l ∧ a ∉ seen := by
  intro l
  induction l with
  | nil => intro seen a; simp [uniqAux]
  | cons x xs ih =>
    intro seen a
    by_cases hx : seen.contains x
    · simp only [uniqAux, hx, if_true]
      rw [ih seen a]
      constructor
      · rintro ⟨h1, h2⟩
        exact ⟨List.mem_cons_of_mem x h1, h2⟩
      · rintro ⟨h1, h2⟩
        rcases List.mem_cons.1 h1 with rfl | h1
        · exact absurd (show a ∈ seen by simpa using hx) h2
        · exact ⟨h1, h2⟩
    · simp only [uniqAux, hx, if_false, Bool.false_eq_true, List.mem_cons]
      rw [ih (x :: seen) a]
      constructor
      · rintro (rfl | ⟨h1, h2⟩)
        · exact ⟨Or.inl rfl,
            fun hs => absurd (show List.contains seen a = true by
              simpa using hs) hx⟩
        · exact ⟨Or.inr h1, fun hs => h2 (List.mem_cons_of_mem x hs)⟩
      · rintro ⟨h1, h2⟩
        rcases h1 with rfl | h1
        · exact Or.inl rfl
        · by_cases hax : a = x
          · exact Or.inl hax
          · exact Or.inr ⟨h1, by
              intro hs
              rcases List.mem_cons.1 hs with h | h
              · exact hax h
              · exact h2 h⟩

/-- The first-seen deduplication produces no duplicates. -/
theorem uniqAux_nodup {α : Type} [DecidableEq α] :
    ∀ (l : List α) (seen : List α), (uniqAux seen l).Nodup := by
  intro l
  induction l with
  | nil => intro seen; simp [uniqAux]
  | cons x xs ih =>
    intro seen
    by_cases hx : seen.contains x
    · simp only [uniqAux, hx, if_true]
      exact ih seen
    · simp only [uniqAux, hx, if_false, Bool.false_eq_true]
      refine List.nodup_cons.mpr ⟨?_, ih (x :: seen)⟩
      intro hmem
      exact ((uniqAux_mem xs (x :: seen) x).1 hmem).2 (List.mem_cons_self x seen)

/-- The first-seen deduplication is a sublist of its input. -/
theorem uniqAux_sublist {α : Type} [DecidableEq α] :
    ∀ (l : List α) (seen : List α), List.Sublist (uniqAux seen l) l := by
  intro l
  induction l with
  | nil => intro seen; simp [uniqAux]
  | cons x xs ih =>
    intro seen
    by_cases hx : seen.contains x
    · simp only [uniqAux, hx, if_true]
      exact (ih seen).cons x
    · simp only [uniqAux, hx, if_false, Bool.false_eq_true]
      exact (ih (x :: seen)).cons₂ x

/-- `uniq` preserves membership. -/
theorem uniq_mem {α : Type} [DecidableEq α] (l : List α) (a : α) :
    a ∈ uniq l ↔ a ∈ l := by
  unfold uniq
  rw [uniqAux_mem]
  simp

/-- `uniq` produces no duplicates. -/
theorem uniq_nodup {α : Type} [DecidableEq α] (l : List α) :
    (uniq l).Nodup := uniqAux_nodup l []

/-- `dedupMatches` preserves membership. -/
theorem dedupMatches_mem (l : List IdentifierMatch) (m : IdentifierMatch) :
    m ∈ dedupMatches l ↔ m ∈ l := by
  unfold dedupMatches
  rw [uniqAux_mem]
  simp

/-- `detectIdentifiers` gives identical results on whitespace-padded
text. -/
theorem detectIdentifiers_ws (w s : List Char)
    (hw : ∀ c ∈ w, isJsWs c = true) :
    detectIdentifiers (w ++ s) = detectIdentifiers s := by
  unfold detectIdentifiers collectPairs detectorResults
  rw [detectSwedishPersonalNumber_ws w s hw, detectDate_ws w s hw,
    detectTemporalReference_ws w s hw, detectPreciseAge_ws w s hw,
    detectFullNames_ws w s hw, detectInitialLastName_ws w s hw,
    detectNameLabels_ws w s hw, detectNameTagLines_ws w s hw,
    detectNameInProse_ws w s hw, detectPatientIdOrJournalNumber_ws w s hw,
    detectEmail_ws w s hw, detectPhoneNumber_ws w s hw,
    detectAddress_ws w s hw, detectWardBedTimestampCombo_ws w s hw]

/-- On whitespace-only input (including the empty string) every detector is
silent and the result is empty. -/
theorem detectIdentifiers_wsOnly (w : List Char)
    (hw : ∀ c ∈ w, isJsWs c = true) :
    detectIdentifiers w = ⟨false, [], []⟩ := by
  have h0 : detectIdentifiers w = detectIdentifiers [] := by
    have := detectIdentifiers_ws w [] hw
    rwa [List.append_nil] at this
  rw [h0]
  rfl

/-- The detector that the orchestrator runs for each reason. -/
def detOf : IdentifierReason → (List Char → Option (List Char))
  | .swedish_personal_number => detectSwedishPersonalNumber
  | .date => detectDate
  | .temporal_reference => detectTemporalReference
  | .precise_age => detectPreciseAge
  | .full_name => detectFullNames
  | .initial_last_name => detectInitialLastName
  | .name_label => detectNameLabels
  | .name_tag => detectNameTagLines
  | .name_in_prose => detectNameInProse
  | .patient_id_or_journal_number => detectPatientIdOrJournalNumber
  | .email => detectEmail
  | .phone_number => detectPhoneNumber
  | .address => detectAddress
  | .ward_bed_timestamp => detectWardBedTimestampCombo

/-- Helper for `collectPairs_spec`: one accumulated entry. -/
theorem collect_case {r : IdentifierReason}
    {d : List Char → Option (List Char)} {t : List Char}
    {m : IdentifierMatch} (hd : detOf r = d)
    (hmap : Option.map (fun v => (⟨r, v⟩ : IdentifierMatch)) (d t) =
      some m) :
    detOf m.reason t = some m.matched := by
  cases hdt : d t with
  | none => rw [hdt] at hmap; simp at hmap
  | some v =>
    rw [hdt] at hmap
    obtain rfl := (Option.some.inj hmap).symm
    show detOf r t = some v
    rw [hd, hdt]

/-- Every accumulated `(reason, match)` pair records exactly the value its
detector returned. -/
theorem collectPairs_spec (t : List Char) (m : IdentifierMatch)
    (h : m ∈ collectPairs t) : detOf m.reason t = some m.matched := by
  unfold collectPairs at h
  rw [List.mem_filterMap] at h
  obtain ⟨p, hp, hmap⟩ := h
  simp only [detectorResults, List.mem_cons, List.not_mem_nil,
    or_false] at hp
  rcases hp with rfl | rfl | rfl | rfl | rfl | rfl | rfl | rfl | rfl | rfl |
      rfl | rfl | rfl | rfl
  all_goals exact collect_case rfl hmap

/-- `matches` of the result and the accumulated pairs coincide up to
deduplication. -/
theorem mem_matches_iff (t : List Char) (m : IdentifierMatch) :
    m ∈ (detectIdentifiers t).«matches» ↔ m ∈ collectPairs t := by
  unfold detectIdentifiers
  exact dedupMatches_mem _ m

/-- `reasons` of the result lists exactly the reasons witnessed in
`matches`. -/
theorem mem_reasons_iff (t : List Char) (r : IdentifierReason) :
    r ∈ (detectIdentifiers t).reasons ↔
      ∃ m ∈ (detectIdentifiers t).«matches», m.reason = r := by
  unfold detectIdentifiers
  show r ∈ uniq ((collectPairs t).map fun m => m.reason) ↔
    ∃ m ∈ dedupMatches (collectPairs t), m.reason = r
  rw [uniq_mem, List.mem_map]
  constructor
  · rintro ⟨m, hm, rfl⟩
    exact ⟨m, (dedupMatches_mem _ m).2 hm, rfl⟩
  · rintro ⟨m, hm, rfl⟩
    exact ⟨m, (dedupMatches_mem _ m).1 hm, rfl⟩

/-- The reasons of the accumulated pairs form a sublist of the fixed
fourteen-reason order. -/
theorem collect_reasons_sublist :
    ∀ (l : List (IdentifierReason × Option (List Char))),
      List.Sublist ((l.filterMap fun p =>
        p.2.map fun v => (⟨p.1, v⟩ : IdentifierMatch)).map fun m => m.reason)
        (l.map Prod.fst) := by
  intro l
  induction l with
  | nil => simp
  | cons p l ih =>
    cases hp : p.2 with
    | none =>
      rw [List.filterMap_cons, hp]
      show List.Sublist _ (p.1 :: l.map Prod.fst)
      exact ih.cons p.1
    | some v =>
      rw [List.filterMap_cons, hp]
      show List.Sublist (p.1 :: _) (p.1 :: l.map Prod.fst)
      exact ih.cons₂ p.1

/-- No two entries of `matches` share a reason: each detector contributes at
most one match. -/
theorem matches_reasons_nodup (t : List Char) :
    ((detectIdentifiers t).«matches».map fun m => m.reason).Nodup := by
  have hsub1 : List.Sublist
      ((detectIdentifiers t).«matches».map fun m => m.reason)
      ((collectPairs t).map fun m => m.reason) := by
    apply List.Sublist.map
    exact uniqAux_sublist (collectPairs t) []
  have hsub2 : List.Sublist ((collectPairs t).map fun m => m.reason)
      ((detectorResults t).map Prod.fst) := collect_reasons_sublist _
  have hnodup : ((detectorResults t).map Prod.fst).Nodup := by
    show ([IdentifierReason.swedish_personal_number, .date,
      .temporal_reference, .precise_age, .full_name, .initial_last_name,
      .name_label, .name_tag, .name_in_prose, .patient_id_or_journal_number,
      .email, .phone_number, .address, .ward_bed_timestamp] :
      List IdentifierReason).Nodup
    decide
  exact (hsub1.trans hsub2).nodup hnodup

/-- Entries of `matches` are uniquely determined by their reason. -/
theorem matches_reason_inj (t : List Char) (m1 m2 : IdentifierMatch)
    (h1 : m1 ∈ (detectIdentifiers t).«matches»)
    (h2 : m2 ∈ (detectIdentifiers t).«matches»)
    (hr : m1.reason = m2.reason) : m1 = m2 :=
  List.inj_on_of_nodup_map (matches_reasons_nodup t) h1 h2 hr

/-! ### Phone-number / personal-number mutual exclusion -/

/-- Introduction rule for sequence matches. -/
theorem mrun_seq_mem {a b : Rx} {f : Nat} {pv : Option Char}
    {s : List Char} {m1 m2 : MRes} (h1 : m1 ∈ mrun a f pv s)
    (h2 : m2 ∈ mrun b f (lastO pv m1.out) m1.rest) :
    (⟨m1.out ++ m2.out, m1.caps ++ m2.caps, m2.rest⟩ : MRes) ∈
      mrun (.seq a b) f pv s := by
  show _ ∈ (mrun a f pv s).flatMap (mchain (mrun b f) pv)
  rw [List.mem_flatMap]
  refine ⟨m1, h1, ?_⟩
  unfold mchain
  rw [List.mem_map]
  exact ⟨m2, h2, rfl⟩

/-- `\s*` can always match the empty string. -/
theorem wsStar_empty_mem (f : Nat) (pv : Option Char) (s : List Char) :
    (⟨[], [], s⟩ : MRes) ∈ mrun wsStar f pv s := by
  show _ ∈ mrunRep (mrun wsRx f) f 0 pv s
  cases f with
  | zero => simp [mrunRep]
  | succ f => simp [mrunRep]

/-- `eps` matches the empty string. -/
theorem eps_mem (f : Nat) (pv : Option Char) (s : List Char) :
    (⟨[], [], s⟩ : MRes) ∈ mrun .eps f pv s := by
  simp [mrun]

/-- Claim-side definition: the strict Swedish personal-number shape, exactly
as the spec words it — `(YY)YYMMDD` followed by `-` or `+` and four digits,
month 01–12, day 01–31, nothing else around it. -/
def strictPnrShape (l : List Char) : Bool := rxFullTest pnrCoreRx l

/-- A string of the strict personal-number shape passes the source's
`personnummerLikeRe` exclusion test (with empty surrounding whitespace). -/
theorem strictPnrShape_pnrLike {v : List Char}
    (h : strictPnrShape v = true) : pnrLike v = true := by
  unfold strictPnrShape rxFullTest at h
  rw [List.any_eq_true] at h
  obtain ⟨m, hm, hrest⟩ := h
  have hrest' : m.rest = [] := by
    cases hr : m.rest
    · rfl
    · rw [hr] at hrest; simp at hrest
  unfold pnrLike rxFullTest
  rw [List.any_eq_true]
  have h4 : (⟨[], [], m.rest⟩ : MRes) ∈
      mrun .eps (v.length + 1) (lastO (lastO none m.out) []) m.rest :=
    eps_mem _ _ _
  have h3 : (⟨[], [], m.rest⟩ : MRes) ∈
      mrun wsStar (v.length + 1) (lastO none m.out) m.rest :=
    wsStar_empty_mem _ _ _
  have h34 := mrun_seq_mem h3 h4
  have h2 := mrun_seq_mem hm h34
  have h1 := mrun_seq_mem (wsStar_empty_mem (v.length + 1) none v) h2
  refine ⟨_, h1, ?_⟩
  simp [hrest']

/-- What `detectPhoneNumber` returns always failed the
`personnummerLikeRe` test. -/
theorem detectPhoneNumber_not_pnrLike {t v : List Char}
    (h : detectPhoneNumber t = some v) : pnrLike v = false := by
  unfold detectPhoneNumber at h
  cases hf : (allMatches phoneCandidateRx t).find? fun m => !pnrLike m.2 with
  | none => rw [hf] at h; simp at h
  | some m0 =>
    rw [hf] at h
    have hv : m0.2 = v := Option.some.inj h
    have hp := List.find?_some hf
    rw [hv] at hp
    simpa using hp

/-! ### The shape of every reported match -/

/-- Dissection of `findSome?`. -/
theorem findSome?_some {α β : Type} {f : α → Option β} :
    ∀ {l : List α} {b : β}, l.findSome? f = some b → ∃ a ∈ l, f a = some b := by
  intro l
  induction l with
  | nil => intro b h; simp at h
  | cons x xs ih =>
    intro b h
    rw [List.findSome?_cons] at h
    cases hx : f x with
    | some y =>
      rw [hx] at h
      have hy : some y = some b := h
      exact ⟨x, List.mem_cons_self x xs, by rw [hx, hy]⟩
    | none =>
      rw [hx] at h
      obtain ⟨a, ha, hfa⟩ := ih h
      exact ⟨a, List.mem_cons_of_mem x ha, hfa⟩

/-- Infix result through an `Option.orElse` chain. -/
theorem orElse_infix {t : List Char} {o1 : Option (List Char)}
    {f : Unit → Option (List Char)}
    (h1 : ∀ v, o1 = some v → v <:+: t)
    (h2 : ∀ v, f () = some v → v <:+: t) :
    ∀ v, o1.orElse f = some v → v <:+: t := by
  intro v h
  cases ho : o1 with
  | some a =>
    rw [ho] at h
    exact h1 v (by rw [ho, ← show some a = some v from h])
  | none =>
    rw [ho] at h
    exact h2 v h

/-- `detectDate` results are infixes of the text. -/
theorem detectDate_infix {t v : List Char} (h : detectDate t = some v) :
    v <:+: t := by
  unfold detectDate at h
  cases hn : (firstRegexMatch t isoLikeRx).orElse fun _ =>
      (firstRegexMatch t dmyRx).orElse fun _ => firstRegexMatch t mdyRx with
  | some n =>
    rw [hn] at h
    have hv : n = v := Option.some.inj h
    subst hv
    refine orElse_infix (fun v hv => firstRegexMatch_infix hv)
      (fun v hv => ?_) n hn
    exact orElse_infix (fun v hv => firstRegexMatch_infix hv)
      (fun v hv => firstRegexMatch_infix hv) v hv
  | none =>
    rw [hn] at h
    exact firstRegexMatch_infix h

/-- `detectTemporalReference` results are infixes of the text. -/
theorem detectTemporalReference_infix {t v : List Char}
    (h : detectTemporalReference t = some v) : v <:+: t := by
  unfold detectTemporalReference at h
  obtain ⟨rx, _, hfa⟩ := findSome?_some h
  exact firstRegexMatch_infix hfa

/-- `detectAddress` results are infixes of the text. -/
theorem detectAddress_infix {t v : List Char} (h : detectAddress t = some v) :
    v <:+: t := by
  unfold detectAddress at h
  refine orElse_infix (fun v hv => firstRegexMatch_infix hv)
    (fun v hv => ?_) v h
  exact orElse_infix (fun v hv => firstRegexMatch_infix hv)
    (fun v hv => firstRegexMatch_infix hv) v hv

/-- `detectPhoneNumber` results are infixes of the text. -/
theorem detectPhoneNumber_infix {t v : List Char}
    (h : detectPhoneNumber t = some v) : v <:+: t := by
  unfold detectPhoneNumber at h
  cases hf : (allMatches phoneCandidateRx t).find? fun m => !pnrLike m.2 with
  | none => rw [hf] at h; simp at h
  | some m0 =>
    rw [hf] at h
    have hv : m0.2 = v := Option.some.inj h
    have hmem := List.mem_of_find?_eq_some hf
    rw [← hv]
    exact amAux_out_infix phoneCandidateRx t none 0 0 m0.1 m0.2
      (by rw [show (m0.1, m0.2) = m0 from rfl]; exact hmem)

/-- `detectPreciseAge` results are infixes of the text. -/
theorem detectPreciseAge_infix {t v : List Char}
    (h : detectPreciseAge t = some v) : v <:+: t := by
  unfold detectPreciseAge at h
  obtain ⟨c, _, hc⟩ := findSome?_some h
  obtain ⟨m, hmem, hf⟩ := findSome?_some hc
  have hv : v = m.2 := by
    split at hf
    · simp at hf
    · split at hf
      · simp at hf
      · exact (Option.some.inj hf).symm
  rw [hv]
  exact amAux_out_infix c.1 t none 0 0 m.1 m.2
    (by rw [show (m.1, m.2) = m from rfl]; exact hmem)

/-- `getD` at an index within bounds is a member. -/
theorem getD_memL {α : Type} :
    ∀ (l : List α) (n : Nat) (d : α), n < l.length → l.getD n d ∈ l := by
  intro l
  induction l with
  | nil => intro n d h; simp at h
  | cons x xs ih =>
    intro n d h
    cases n with
    | zero => exact List.mem_cons_self x xs
    | succ n =>
      exact List.mem_cons_of_mem x
        (ih n d (by simpa using Nat.lt_of_succ_lt_succ h))

/-- A tag candidate reported by `lineCheckTag` is an infix of the line. -/
theorem lineCheckTag_infix {line v : List Char}
    (h : lineCheckTag line = some v) : v <:+: line := by
  unfold lineCheckTag at h
  cases hh : (mrun tagLineRx ((line.dropWhile isJsWs).length + 1) none
      (line.dropWhile isJsWs)).head? with
  | none =>
    rw [hh] at h
    exact absurd h (by simp)
  | some m =>
    rw [hh] at h
    have h1 : (match m.caps with
      | [] => none
      | cand :: _ =>
        let candidate := trimL cand
        if candidate.isEmpty then none
        else if candidate.any isDigitC then none
        else if allCapsTagSv candidate then none
        else if notANameVitals.contains (lowerL candidate) then none
        else some candidate) = some v := h
    cases hc : m.caps with
    | nil =>
      rw [hc] at h1
      exact absurd h1 (by simp)
    | cons cand crest =>
      rw [hc] at h1
      have h2 : (if (trimL cand).isEmpty then none
        else if (trimL cand).any isDigitC then none
        else if allCapsTagSv (trimL cand) then none
        else if notANameVitals.contains (lowerL (trimL cand)) then none
        else some (trimL cand)) = some v := h1
      have hcandin : cand <:+: line.dropWhile isJsWs :=
        mrun_caps_infix tagLineRx _ none (line.dropWhile isJsWs) m
          (head?_memL hh) cand (by rw [hc]; exact List.mem_cons_self _ _)
      have hchain : trimL cand <:+: line :=
        (( trimL_infix cand).trans hcandin).trans
          (List.dropWhile_suffix isJsWs).isInfix
      split at h2
      · exact absurd h2 (by simp)
      · split at h2
        · exact absurd h2 (by simp)
        · split at h2
          · exact absurd h2 (by simp)
          · split at h2
            · exact absurd h2 (by simp)
            · rw [← Option.some.inj h2]
              exact hchain

/-- `detectNameTagLines` results are infixes of the text. -/
theorem detectNameTagLines_infix {t v : List Char}
    (h : detectNameTagLines t = some v) : v <:+: t := by
  unfold detectNameTagLines at h
  obtain ⟨line, hline, hlc⟩ := findSome?_some h
  exact ( lineCheckTag_infix hlc).trans
    ( splitP_replaceCRLF_mem_infix sepNl (by decide) t line hline)

/-- What `nameLabelAt` reports is one token, or two tokens joined by a
single space, each an infix of the rest it scanned. -/
theorem nameLabelAt_spec {rest v : List Char} (h : nameLabelAt rest = some v) :
    ∃ a b, (v = a ∨ v = a ++ ' ' :: b) ∧ a <:+: rest ∧ b <:+: rest := by
  unfold nameLabelAt at h
  cases hh : (mrun nameRx (rest.length + 1) none rest).head? with
  | none =>
    rw [hh] at h
    exact absurd h (by simp)
  | some nm =>
    rw [hh] at h
    have h1 : (match nm.caps with
      | [] => none
      | w1c :: more =>
        let w1 := trimL w1c
        let w2 := match more with
          | [] => []
          | w :: _ => trimL w
        if w1.isEmpty then none
        else if w1.any isDigitC || (!w2.isEmpty && w2.any isDigitC) then none
        else if allCapsSv w1 || (!w2.isEmpty && allCapsSv w2) then none
        else if notANameLabel.contains (lowerL w1) ||
            (!w2.isEmpty && notANameLabel.contains (lowerL w2)) then none
        else some (if w2.isEmpty then w1 else w1 ++ ' ' :: w2)) = some v := h
    cases hc : nm.caps with
    | nil =>
      rw [hc] at h1
      exact absurd h1 (by simp)
    | cons w1c more =>
      rw [hc] at h1
      have hw1in : trimL w1c <:+: rest :=
        ( trimL_infix w1c).trans
          ( mrun_caps_infix nameRx _ none rest nm (head?_memL hh) w1c
            (by rw [hc]; exact List.mem_cons_self _ _))
      cases more with
      | nil =>
        have h2 : (if (trimL w1c).isEmpty then none
          else if (trimL w1c).any isDigitC ||
              (!(List.isEmpty ([] : List Char)) &&
                ([] : List Char).any isDigitC) then none
          else if allCapsSv (trimL w1c) ||
              (!(List.isEmpty ([] : List Char)) &&
                allCapsSv ([] : List Char)) then none
          else if notANameLabel.contains (lowerL (trimL w1c)) ||
              (!(List.isEmpty ([] : List Char)) &&
                notANameLabel.contains (lowerL ([] : List Char))) then none
          else some (if List.isEmpty ([] : List Char) then trimL w1c
            else trimL w1c ++ ' ' :: ([] : List Char))) = some v := h1
        split at h2
        · exact absurd h2 (by simp)
        · split at h2
          · exact absurd h2 (by simp)
          · split at h2
            · exact absurd h2 (by simp)
            · split at h2
              · exact absurd h2 (by simp)
              · have h3 : some (trimL w1c) = some v := h2
                exact ⟨trimL w1c, [], Or.inl (Option.some.inj h3).symm,
                  hw1in, List.nil_infix⟩
      | cons w more2 =>
        have hw2in : trimL w <:+: rest :=
          ( trimL_infix w).trans
            ( mrun_caps_infix nameRx _ none rest nm (head?_memL hh) w
              (by rw [hc]
                  exact List.mem_cons_of_mem _ (List.mem_cons_self _ _)))
        have h2 : (if (trimL w1c).isEmpty then none
          else if (trimL w1c).any isDigitC ||
              (!(trimL w).isEmpty && (trimL w).any isDigitC) then none
          else if allCapsSv (trimL w1c) ||
              (!(trimL w).isEmpty && allCapsSv (trimL w)) then none
          else if notANameLabel.contains (lowerL (trimL w1c)) ||
              (!(trimL w).isEmpty &&
                notANameLabel.contains (lowerL (trimL w))) then none
          else some (if (trimL w).isEmpty then trimL w1c
            else trimL w1c ++ ' ' :: trimL w)) = some v := h1
        split at h2
        · exact absurd h2 (by simp)
        · split at h2
          · exact absurd h2 (by simp)
          · split at h2
            · exact absurd h2 (by simp)
            · split at h2
              · exact absurd h2 (by simp)
              · by_cases hw2e : (trimL w).isEmpty
                · rw [if_pos hw2e] at h2
                  exact ⟨trimL w1c, [], Or.inl (Option.some.inj h2).symm,
                    hw1in, List.nil_infix⟩
                · rw [if_neg hw2e] at h2
                  exact ⟨trimL w1c, trimL w,
                    Or.inr (Option.some.inj h2).symm, hw1in, hw2in⟩

/-- What `detectNameLabels` reports is one token, or two tokens joined by a
single space, each an infix of the text. -/
theorem detectNameLabels_spec {t v : List Char}
    (h : detectNameLabels t = some v) :
    ∃ a b, (v = a ∨ v = a ++ ' ' :: b) ∧ a <:+: t ∧ b <:+: t := by
  unfold detectNameLabels at h
  obtain ⟨pm, _, hna⟩ := findSome?_some h
  obtain ⟨a, b, hv, ha, hb⟩ := nameLabelAt_spec hna
  have hrest : (t.drop (pm.1 + pm.2.length)).dropWhile isJsWs <:+ t :=
    (List.dropWhile_suffix isJsWs).trans (List.drop_suffix _ t)
  exact ⟨a, b, hv, ha.trans hrest.isInfix, hb.trans hrest.isInfix⟩

/-- What `chunkCheckParts` reports is one token, or two tokens joined by a
single space, each a member of the token list. -/
theorem chunkCheckParts_spec {parts : List (List Char)} {v : List Char}
    (h : chunkCheckParts parts = some v) :
    ∃ a b, (v = a ∨ v = a ++ ' ' :: b) ∧ a ∈ parts ∧
      (b = [] ∨ b ∈ parts) := by
  unfold chunkCheckParts at h
  split at h
  · exact absurd h (by simp)
  · rename_i hlen
    split at h
    · have hmem : parts.getD 0 [] ∈ parts :=
        getD_memL parts 0 [] (by omega)
      exact ⟨parts.getD 0 [], [], Or.inl (Option.some.inj h).symm, hmem,
        Or.inl rfl⟩
    · split at h
      · rename_i hcond
        have h3 : 3 ≤ parts.length := by
          have := hcond
          simp only [Bool.and_eq_true, decide_eq_true_eq] at this
          exact this.1.1.1.1.1
        have hm0 : parts.getD 0 [] ∈ parts := getD_memL parts 0 [] (by omega)
        have hm1 : parts.getD 1 [] ∈ parts := getD_memL parts 1 [] (by omega)
        split at h
        · exact absurd h (by simp)
        · split at h
          · exact absurd h (by simp)
          · exact ⟨parts.getD 0 [], parts.getD 1 [],
              Or.inr (Option.some.inj h).symm, hm0, Or.inr hm1⟩
      · exact absurd h (by simp)

/-- What `detectNameInProse` reports is one token, or two tokens joined by a
single space, each an infix of the text. -/
theorem detectNameInProse_spec {t v : List Char}
    (h : detectNameInProse t = some v) :
    ∃ a b, (v = a ∨ v = a ++ ' ' :: b) ∧ a <:+: t ∧ b <:+: t := by
  unfold detectNameInProse at h
  obtain ⟨chunk, hchunk, hcc⟩ := findSome?_some h
  have hchunk2 := (List.mem_filter.1 hchunk).1
  obtain ⟨piece, hpiece, htrim⟩ := List.mem_map.1 hchunk2
  have hchunkinf : chunk <:+: t := by
    rw [← htrim]
    exact ( trimL_infix piece).trans
      ( splitP_replaceCRLF_mem_infix sepProse (by decide) t piece hpiece)
  unfold chunkCheckProse at hcc
  obtain ⟨a, b, hv, ha, hb⟩ := chunkCheckParts_spec hcc
  have hainf : a <:+: t :=
    (( splitP_mem_infix isJsWs chunk a
      (List.mem_filter.1 ha).1)).trans hchunkinf
  have hbinf : b <:+: t := by
    rcases hb with rfl | hb
    · exact List.nil_infix
    · exact (( splitP_mem_infix isJsWs chunk b
        (List.mem_filter.1 hb).1)).trans hchunkinf
  exact ⟨a, b, hv, hainf, hbinf⟩

/-- `matches` of the result contains no duplicate entries. -/
theorem matches_nodup (t : List Char) :
    (detectIdentifiers t).«matches».Nodup := by
  unfold detectIdentifiers
  exact uniqAux_nodup (collectPairs t) []

/-! ### The claims -/

/-- C1: for every input string, the result of `detectIdentifiers` satisfies
`hasIdentifiers == true` exactly when the `reasons` list is non-empty. -/
theorem C1_hasIdentifiers_iff_reasons (t : List Char) :
    (detectIdentifiers t).hasIdentifiers = true ↔
      (detectIdentifiers t).reasons ≠ [] := by
  unfold detectIdentifiers
  show decide (0 < (uniq ((collectPairs t).map fun m => m.reason)).length) =
    true ↔ uniq ((collectPairs t).map fun m => m.reason) ≠ []
  rw [decide_eq_true_iff]
  constructor
  · intro h hnil
    rw [hnil] at h
    simp at h
  · intro h
    exact List.length_pos.mpr h

/-- C2: no match of `detectIdentifiers` pairs the reason `phone_number`
with a string of the strict Swedish personal-number shape ((YY)YYMMDD,
month 01–12, day 01–31, then `-` or `+` and four digits): the phone
detector's `personnummerLikeRe` exclusion guarantees the returned candidate
is not personal-number-shaped, so such a token is never reported under both
`swedish_personal_number` and `phone_number`. -/
theorem C2_phone_never_pnr_shaped (t : List Char) (m : IdentifierMatch)
    (h : m ∈ (detectIdentifiers t).«matches»)
    (hr : m.reason = .phone_number) :
    strictPnrShape m.matched = false := by
  have hs := collectPairs_spec t m ((mem_matches_iff t m).1 h)
  rw [hr] at hs
  have hp : detectPhoneNumber t = some m.matched := hs
  have hlike := detectPhoneNumber_not_pnrLike hp
  cases hx : strictPnrShape m.matched
  · rfl
  · rw [strictPnrShape_pnrLike hx] at hlike
    exact absurd hlike (by simp)

/-- Witness for C2: the phone number reported in `"Tel 0701234567"` is not
personal-number-shaped. -/
theorem C2_witness :
    (⟨.phone_number, " 0701234567".data⟩ : IdentifierMatch) ∈
      (detectIdentifiers "Tel 0701234567".data).«matches» ∧
    strictPnrShape " 0701234567".data = false :=
  ⟨by decide,
    C2_phone_never_pnr_shaped "Tel 0701234567".data
      ⟨.phone_number, " 0701234567".data⟩ (by decide) rfl⟩

/-- C3 counterexample: on `"Name: John  Smith"` (two spaces) the
`name_label` detector reports `"John Smith"` — re-joined with a single
space — which is not a contiguous substring of the input. -/
theorem C3_counterexample :
    (⟨.name_label, "John Smith".data⟩ : IdentifierMatch) ∈
      (detectIdentifiers "Name: John  Smith".data).«matches» ∧
    ¬ ("John Smith".data <:+: "Name: John  Smith".data) := by
  constructor
  · decide
  · decide

/-- C3 amended: every reported match is a contiguous substring of the
input, except that a `name_label` or `name_in_prose` match is either a
single contiguous token or two contiguous tokens re-joined with a single
space. -/
theorem C3_amended_matches_substrings (t : List Char) (m : IdentifierMatch)
    (h : m ∈ (detectIdentifiers t).«matches») :
    (m.reason ≠ .name_label ∧ m.reason ≠ .name_in_prose →
      m.matched <:+: t) ∧
    (m.reason = .name_label ∨ m.reason = .name_in_prose →
      ∃ a b, (m.matched = a ∨ m.matched = a ++ ' ' :: b) ∧
        a <:+: t ∧ b <:+: t) := by
  have hs := collectPairs_spec t m ((mem_matches_iff t m).1 h)
  constructor
  · rintro ⟨hnl, hnp⟩
    cases hrc : m.reason
    case name_label => exact absurd hrc hnl
    case name_in_prose => exact absurd hrc hnp
    case full_name =>
      rw [hrc] at hs
      exact firstRegexMatch_infix hs
    case initial_last_name =>
      rw [hrc] at hs
      exact firstRegexMatch_infix hs
    case name_tag =>
      rw [hrc] at hs
      exact detectNameTagLines_infix hs
    case date =>
      rw [hrc] at hs
      exact detectDate_infix hs
    case temporal_reference =>
      rw [hrc] at hs
      exact detectTemporalReference_infix hs
    case precise_age =>
      rw [hrc] at hs
      exact detectPreciseAge_infix hs
    case swedish_personal_number =>
      rw [hrc] at hs
      exact firstRegexMatch_infix hs
    case patient_id_or_journal_number =>
      rw [hrc] at hs
      exact firstRegexMatch_infix hs
    case email =>
      rw [hrc] at hs
      exact firstRegexMatch_infix hs
    case phone_number =>
      rw [hrc] at hs
      exact detectPhoneNumber_infix hs
    case address =>
      rw [hrc] at hs
      exact detectAddress_infix hs
    case ward_bed_timestamp =>
      rw [hrc] at hs
      exact firstRegexMatch_infix hs
  · intro hor
    rcases hor with hrl | hrp
    · rw [hrl] at hs
      exact detectNameLabels_spec hs
    · rw [hrp] at hs
      exact detectNameInProse_spec hs

/-- Witness for the amended C3: the date match of `"Born 2024-01-15"` is a
contiguous substring. -/
theorem C3_amended_witness :
    ((⟨.date, "2024-01-15".data⟩ : IdentifierMatch).reason ≠ .name_label ∧
        (⟨.date, "2024-01-15".data⟩ : IdentifierMatch).reason ≠
          .name_in_prose →
      (⟨.date, "2024-01-15".data⟩ : IdentifierMatch).matched <:+:
        "Born 2024-01-15".data) ∧
    ((⟨.date, "2024-01-15".data⟩ : IdentifierMatch).reason = .name_label ∨
        (⟨.date, "2024-01-15".data⟩ : IdentifierMatch).reason =
          .name_in_prose →
      ∃ a b, ((⟨.date, "2024-01-15".data⟩ : IdentifierMatch).matched = a ∨
          (⟨.date, "2024-01-15".data⟩ : IdentifierMatch).matched =
            a ++ ' ' :: b) ∧
        a <:+: "Born 2024-01-15".data ∧ b <:+: "Born 2024-01-15".data) :=
  C3_amended_matches_substrings "Born 2024-01-15".data
    ⟨.date, "2024-01-15".data⟩ (by decide)

/-- C4: age-range and decade expressions do not trigger `precise_age`,
while a precise standalone age does, with the literal match `"age 47"`. -/
theorem C4_age_ranges :
    IdentifierReason.precise_age ∉
      (detectIdentifiers "patient in their 40s".data).reasons ∧
    IdentifierReason.precise_age ∉
      (detectIdentifiers "age 20-30".data).reasons ∧
    IdentifierReason.precise_age ∈
      (detectIdentifiers "age 47".data).reasons ∧
    (⟨.precise_age, "age 47".data⟩ : IdentifierMatch) ∈
      (detectIdentifiers "age 47".data).«matches» :=
  ⟨by decide, by decide, by decide, by decide⟩

/-- C5 counterexample (refuting the claim's last conjunct): no input ever
produces two `matches` entries with the same reason and different matched
text — each detector contributes at most one match, so the same reason
never occurs twice in `matches`. -/
theorem C5_counterexample :
    ¬ ∃ (s : List Char) (m1 m2 : IdentifierMatch),
      m1 ∈ (detectIdentifiers s).«matches» ∧
      m2 ∈ (detectIdentifiers s).«matches» ∧
      m1.reason = m2.reason ∧ m1.matched ≠ m2.matched := by
  rintro ⟨s, m1, m2, h1, h2, hr, hne⟩
  exact hne (congrArg IdentifierMatch.matched
    (matches_reason_inj s m1 m2 h1 h2 hr))

/-- C5 amended: `matches` never contains two equal `(reason, match)`
entries; an input containing the same email address twice yields exactly
one `email` entry; and (strengthening the claim's "may") two entries never
share a reason at all, because each detector contributes at most one
match. -/
theorem C5_amended_dedup :
    (∀ t : List Char, (detectIdentifiers t).«matches».Nodup) ∧
    ((detectIdentifiers "ask a@b.se or a@b.se".data).«matches».countP
        (fun m => m.reason = .email) = 1 ∧
      (⟨.email, "a@b.se".data⟩ : IdentifierMatch) ∈
        (detectIdentifiers "ask a@b.se or a@b.se".data).«matches») ∧
    (∀ (t : List Char) (m1 m2 : IdentifierMatch),
      m1 ∈ (detectIdentifiers t).«matches» →
      m2 ∈ (detectIdentifiers t).«matches» →
      m1.reason = m2.reason → m1 = m2) :=
  ⟨matches_nodup, ⟨by decide, by decide⟩, matches_reason_inj⟩

/-- Witness for the amended C5: the two email entries of the duplicate-email
input coincide. -/
theorem C5_amended_witness :
    (⟨.email, "a@b.se".data⟩ : IdentifierMatch) =
      (⟨.email, "a@b.se".data⟩ : IdentifierMatch) :=
  C5_amended_dedup.2.2 "ask a@b.se or a@b.se".data
    ⟨.email, "a@b.se".data⟩ ⟨.email, "a@b.se".data⟩ (by decide) (by decide)
    rfl

/-- C6: `"Born 2024-01-15"` is flagged as a `date` with the literal match
`"2024-01-15"`, and a bare month-name mention (`"saw patient in May"`)
alone triggers the `date` reason. -/
theorem C6_date_cases :
    IdentifierReason.date ∈
      (detectIdentifiers "Born 2024-01-15".data).reasons ∧
    (⟨.date, "2024-01-15".data⟩ : IdentifierMatch) ∈
      (detectIdentifiers "Born 2024-01-15".data).«matches» ∧
    IdentifierReason.date ∈
      (detectIdentifiers "saw patient in May".data).reasons :=
  ⟨by decide, by decide, by decide⟩

/-- C7: on whitespace-only input (including the empty string) the detector
returns the empty result: `hasIdentifiers == false`, no reasons, no
matches.  Totality over arbitrary strings holds by construction: the
embedding is a total function on `List Char`. -/
theorem C7_whitespace_empty (w : List Char)
    (hw : ∀ c ∈ w, isJsWs c = true) :
    detectIdentifiers w = ⟨false, [], []⟩ :=
  detectIdentifiers_wsOnly w hw

/-- Witness for C7 at a concrete whitespace-only input. -/
theorem C7_witness : detectIdentifiers " \t\n  ".data = ⟨false, [], []⟩ :=
  C7_whitespace_empty " \t\n  ".data (by decide)

/-- C8: `detectIdentifiers` is deterministic — two invocations on the same
string yield identical results.  The embedding is a pure function (the
source allocates fresh regex state on every call and reads no global
state), so equality of the two call results is definitional. -/
theorem C8_deterministic (s : List Char) :
    detectIdentifiers s = detectIdentifiers s := rfl

/-- C9: whitespace-only padding prepended to the text neither adds nor
removes any reason (in fact the whole result is unchanged, which yields the
claimed set equality of `reasons`). -/
theorem C9_ws_padding (w s : List Char) (hw : ∀ c ∈ w, isJsWs c = true)
    (r : IdentifierReason) :
    r ∈ (detectIdentifiers (w ++ s)).reasons ↔
      r ∈ (detectIdentifiers s).reasons := by
  rw [detectIdentifiers_ws w s hw]

/-- Witness for C9 at a concrete padding and text. -/
theorem C9_witness :
    IdentifierReason.date ∈
        (detectIdentifiers (" \t".data ++ "saw patient in May".data)).reasons ↔
      IdentifierReason.date ∈
        (detectIdentifiers "saw patient in May".data).reasons :=
  C9_ws_padding " \t".data "saw patient in May".data (by decide) .date

/-- C10: the `reasons` list contains no duplicates, and its elements are
exactly the reasons witnessed by entries of `matches`. -/
theorem C10_reasons_matches_agree (t : List Char) :
    (detectIdentifiers t).reasons.Nodup ∧
    (∀ r : IdentifierReason, r ∈ (detectIdentifiers t).reasons ↔
      ∃ m ∈ (detectIdentifiers t).«matches», m.reason = r) := by
  constructor
  · show (uniq ((collectPairs t).map fun m => m.reason)).Nodup
    exact uniq_nodup _
  · exact fun r => mem_reasons_iff t r

end PII
